import Mathlib

/-!
Verification of the mekara MCP script executor and VCR cassette.

This file shallowly embeds the executor core of the repository:
  * the step model of `src/mekara/scripting/runtime.py`,
  * the frame stack and driving loop of `src/mekara/mcp/executor.py`,
  * the tool surface of `src/mekara/mcp/server.py`,
  * the cassette of `src/mekara/vcr/cassette.py` and its event model from
    `src/mekara/vcr/events.py`,
and proves the testable properties of the specification against it.

Modelling conventions:
  * Python `Path` values are modelled as `String`s; exceptions are modelled by
    their message `String`.
  * Python generators are modelled by an explicit resumption (`Comp`) together
    with a generator status (`GenSt`) distinguishing unstarted, suspended and
    exhausted generators, mirroring CPython generator behaviour for the calls
    the executor actually makes (`next`, `send`, `StopIteration`).
  * Mutating Python properties and methods become state-passing functions
    returning the value together with the updated state.
  * The executor's stack list is kept with the TOP frame at the HEAD of the
    Lean list (Python keeps the top at `stack[-1]`); `list.append`/`pop` on the
    Python side become `cons`/`tail` here.
  * Script resolution (`load_script`, an external collaborator of the core per
    the specification) is modelled by an abstract registry mapping a normalized
    name and request to a loaded script or an error message.
-/

namespace Mekara

/-- Models the `ShellAction | CallAction` union of `runtime.py`. A callable is
identified by its function name, and keyword-argument values are modelled as
strings. -/
inductive AutoAction where
  | shell (cmd : String)
  | call (funcName : String) (kwargs : List (String × String))
deriving DecidableEq, Repr

/-- Models the `AutoException` dataclass of `runtime.py` (the result of an auto
step that failed with an exception); the exception object is modelled by its
text. -/
structure AutoExceptionV where
  success : Bool := false
  exception : String
  step_description : String
  output : String
deriving DecidableEq, Repr

/-- Models the `Auto` step dataclass of `runtime.py`. -/
structure AutoV where
  action : AutoAction
  context : String
deriving DecidableEq, Repr

/-- Models the `Llm` step dataclass of `runtime.py`; `expects` is the ordered
key/description map. -/
structure LlmV where
  prompt : String
  expects : List (String × String) := []
deriving DecidableEq, Repr

/-- Models the `CallScript` step dataclass of `runtime.py`. -/
structure CallScriptV where
  name : String
  request : String := ""
  working_dir : Option String := none
deriving DecidableEq, Repr

/-- Models the `Auto | Llm | CallScript` step union yielded by script
generators. -/
inductive Step where
  | auto (a : AutoV)
  | llm (l : LlmV)
  | callScript (c : CallScriptV)
deriving DecidableEq, Repr

/-- Models the `ScriptCallResult` dataclass of `runtime.py`. -/
structure ScriptCallResultV where
  success : Bool
  summary : String
  aborted : Bool
  steps_executed : Nat
  exception : Option String := none
deriving DecidableEq, Repr

/-- Models the `AutoResult = ShellResult | CallResult | AutoException` union of
`runtime.py`. `CallResult.value` is modelled as a string. -/
inductive AutoResultV where
  | shellResult (success : Bool) (exit_code : Int) (output : String)
  | callResult (success : Bool) (value : String) (error : Option String) (output : String)
  | autoException (e : AutoExceptionV)
deriving DecidableEq, Repr

/-- The `success` attribute shared by the three `AutoResult` variants. -/
def AutoResultV.success : AutoResultV → Bool
  | .shellResult s _ _ => s
  | .callResult s _ _ _ => s
  | .autoException e => e.success

/-- The `output` attribute shared by the three `AutoResult` variants. -/
def AutoResultV.output : AutoResultV → String
  | .shellResult _ _ o => o
  | .callResult _ _ _ o => o
  | .autoException e => e.output

/-- Tests whether `sub` occurs in `l` (helper for Python's `sub in s`). -/
def containsAux (sub : List Char) : List Char → Bool
  | [] => sub.isEmpty
  | c :: cs => sub.isPrefixOf (c :: cs) || containsAux sub cs

/-- Replaces the first occurrence of `pat` (non-empty) in the character list,
modelling Python's `str.replace(pat, rep, 1)`. -/
def replaceFirstAux (pat rep : List Char) : List Char → List Char
  | [] => []
  | c :: cs =>
    if pat.isPrefixOf (c :: cs) then rep ++ (c :: cs).drop pat.length
    else c :: replaceFirstAux pat rep cs

/-- Splits a character list on a separator character, modelling Python's
`str.split` with a one-character separator. -/
def splitOnChar (sep : Char) : List Char → List (List Char)
  | [] => [[]]
  | c :: cs =>
    if c = sep then [] :: splitOnChar sep cs
    else
      match splitOnChar sep cs with
      | [] => [[c]]
      | l :: ls => (c :: l) :: ls

/-- The lines of `s`, modelling Python's `s.split("\n")`. -/
def linesOf (s : String) : List String :=
  (splitOnChar '\n' s.data).map .mk

/-- Whether `s` ends with a newline character. -/
def endsWithNewline (s : String) : Bool :=
  s.data.getLast? = some '\n'

/-- Drops the final character of `s` (Python's `s[:-1]`, used after an
`endswith` check). -/
def dropLastChar (s : String) : String :=
  .mk s.data.dropLast

/-- Strips leading and trailing whitespace, modelling Python's `str.strip()`. -/
def pyStrip (s : String) : String :=
  .mk (((s.data.dropWhile Char.isWhitespace).reverse.dropWhile Char.isWhitespace).reverse)

/-- Normalizes colons to slashes, modelling `name.replace(":", "/")`. -/
def normalizeName (s : String) : String :=
  .mk (s.data.map (fun c => if c = ':' then '/' else c))

/-- Models `build_nl_command_prompt` of `nl.py`: substitutes the first
`$ARGUMENTS` occurrence with the request (guarded, as in the source, by an
occurrence test). The `@standard:` injection step loads standards files from
disk through an external collaborator outside the executor core (the
specification scopes NL prompt serialization out); it is modelled as
contributing nothing. -/
def build_nl_command_prompt (command_content request : String) : String :=
  if containsAux "$ARGUMENTS".data command_content.data then
    .mk (replaceFirstAux "$ARGUMENTS".data request.data command_content.data)
  else command_content

/-- Models the values sent into a script generator by `generator.send(result)`:
an `AutoResult`, an `LlmResult`, a `ScriptCallResult`, or Python `None` (what
plain `next(generator)` sends). -/
inductive ResultV where
  | auto (r : AutoResultV)
  | llm (success : Bool) (outputs : List (String × String))
  | script (r : ScriptCallResultV)
  | noneV
deriving DecidableEq, Repr

/-- The `success` attribute of a step result, used when formatting executed
steps (`server.py`). `noneV` never reaches that code path. -/
def ResultV.success : ResultV → Bool
  | .auto r => r.success
  | .llm s _ => s
  | .script r => r.success
  | .noneV => false

/-- Models a compiled script's suspended computation: the body of the Python
generator, as the sequence of steps it yields, where each continuation is keyed
by the result sent back in. -/
inductive Comp where
  | done
  | step (s : Step) (k : ResultV → Comp)

/-- Models the runtime status of a CPython generator object: not yet started,
suspended at a `yield`, or exhausted (`StopIteration` raised). -/
inductive GenSt where
  | unstarted (c : Comp)
  | suspended (k : ResultV → Comp)
  | exhausted

/-- Models `next(generator)`: start an unstarted generator, or resume a
suspended one sending `None`; returns the yielded step (`none` models
`StopIteration`) and the new generator status. -/
def genNext : GenSt → Option Step × GenSt
  | .unstarted .done => (none, .exhausted)
  | .unstarted (.step s k) => (some s, .suspended k)
  | .suspended k =>
    match k .noneV with
    | .done => (none, .exhausted)
    | .step s k' => (some s, .suspended k')
  | .exhausted => (none, .exhausted)

/-- Models `generator.send(result)` on a suspended generator; on an exhausted
generator this models the `StopIteration` the caller catches. Sending into an
unstarted generator raises `TypeError` in Python and is unreachable from the
executor; it is modelled like exhaustion. -/
def genSend (g : GenSt) (r : ResultV) : Option Step × GenSt :=
  match g with
  | .suspended k =>
    match k r with
    | .done => (none, .exhausted)
    | .step s k' => (some s, .suspended k')
  | .unstarted _ => (none, .exhausted)
  | .exhausted => (none, .exhausted)

/-- Models `CompiledScriptFrame` of `executor.py`. The `resolved_target`
is modelled by the raw NL source text `nl_raw` that
`resolved_target.nl.path.read_text()` would return; `step_index` and
`current_step` model the `_step_index` and `_current_step` backing fields. -/
structure CompiledScriptFrame where
  script_name : String
  working_dir : String
  nl_raw : String
  arguments : String
  gen : GenSt
  step_index : Nat := 0
  current_step : Option Step := none
  has_shown_nl_source : Bool := false
  exception : Option AutoExceptionV := none

/-- Models `NLScriptFrame` of `executor.py` (shares the `ScriptFrame` base
fields). -/
structure NLScriptFrame where
  script_name : String
  working_dir : String
  nl_raw : String
  arguments : String

/-- Models the `ExecutionFrame = CompiledScriptFrame | NLScriptFrame` union. -/
inductive ExecutionFrame where
  | compiled (f : CompiledScriptFrame)
  | nl (f : NLScriptFrame)

/-- Models the mutating `current_step` property getter of
`CompiledScriptFrame`: if no step is cached, pull the next one from the
generator (returning `none` on `StopIteration` without caching); returns the
step together with the updated frame. -/
def CompiledScriptFrame.currentStepM (f : CompiledScriptFrame) :
    Option Step × CompiledScriptFrame :=
  match f.current_step with
  | some s => (some s, f)
  | none =>
    match genNext f.gen with
    | (some s, g) => (some s, { f with gen := g, current_step := some s })
    | (none, g) => (none, { f with gen := g })

/-- Models `CompiledScriptFrame.advance`: send `result` into the generator; on
a yielded step cache it and increment `_step_index`, on `StopIteration` clear
the cached step (without incrementing). -/
def CompiledScriptFrame.advance (f : CompiledScriptFrame) (r : ResultV) :
    CompiledScriptFrame :=
  match genSend f.gen r with
  | (some s, g) => { f with gen := g, current_step := some s, step_index := f.step_index + 1 }
  | (none, g) => { f with gen := g, current_step := none }

/-- Models `Auto.description` of `runtime.py`; Python's `repr` of a string
keyword-argument value is modelled with single quotes. -/
def AutoV.description (a : AutoV) : String :=
  match a.action with
  | .shell cmd => cmd
  | .call fn kwargs =>
    fn ++ "(" ++ String.intercalate ", " (kwargs.map (fun kv => kv.1 ++ "=" ++ "'" ++ kv.2 ++ "'")) ++ ")"

/-- Models `CallScript.description` of `runtime.py`. -/
def CallScriptV.description (c : CallScriptV) : String :=
  if c.request = "" then "/" ++ c.name else "/" ++ c.name ++ " " ++ c.request

/-- Models `ExecutedStep` of `executor.py` (the per-run execution trail). -/
structure ExecutedStep where
  script_name : String
  step_index : Nat
  step : Step
  result : Option ResultV := none
  is_entry : Bool := false
  is_exit : Bool := false
deriving DecidableEq, Repr

/-- Models the `ExecutedStep.output` property: the stripped output of an auto
step result, or `none` when empty or not an auto result. -/
def ExecutedStep.output (s : ExecutedStep) : Option String :=
  match s.result with
  | some (.auto r) =>
    let o := pyStrip r.output
    if o = "" then none else some o
  | _ => none

/-- Models `PendingLlmStep` of `executor.py`. -/
structure PendingLlmStepV where
  step : LlmV
  script_name : String
  step_index : Nat
  stack_path : String
  context : String := ""
deriving DecidableEq, Repr

/-- Models `PendingNLScript` of `executor.py`. -/
structure PendingNLScriptV where
  name : String
  content : String
deriving DecidableEq, Repr

/-- Models `PendingNLFallback` of `executor.py`. -/
structure PendingNLFallbackV where
  script_name : String
  nl_source : String
  exception : AutoExceptionV
  step_index : Nat
  stack_path : String
deriving DecidableEq, Repr

/-- Models the `Pending = PendingLlmStep | PendingNLScript | PendingNLFallback`
union. -/
inductive PendingV where
  | llmStep (p : PendingLlmStepV)
  | nlScript (p : PendingNLScriptV)
  | nlFallback (p : PendingNLFallbackV)
deriving DecidableEq, Repr

/-- Models `McpScriptExecutor._load_nl_source`: read the resolved NL source
(the frame's stored `nl_raw` content) and process it. -/
def loadNlSource : ExecutionFrame → String
  | .compiled f => build_nl_command_prompt f.nl_raw f.arguments
  | .nl f => build_nl_command_prompt f.nl_raw f.arguments

/-- Tests whether `sub` occurs in `s` (Python's `sub in s`). -/
def strContains (s sub : String) : Bool :=
  containsAux sub.data s.data

/-- Models `PendingLlmStep.format` of `executor.py`. -/
def PendingLlmStepV.format (p : PendingLlmStepV) : String :=
  let l0 : List String := if p.context = "" then [] else [p.context]
  let location : String :=
    if strContains p.stack_path " > " then
      "## LLM Step in `" ++ p.script_name ++ "` (step " ++ toString p.step_index ++ ")\n\n" ++
        "**Stack:** `" ++ p.stack_path ++ "`"
    else
      "## LLM Step " ++ toString p.step_index ++ " in `" ++ p.script_name ++ "`"
  let l1 := l0 ++ [location, "", p.step.prompt]
  let l2 := l1 ++
    (if p.step.expects.isEmpty then []
     else ["", "### Expected outputs:"] ++
       p.step.expects.map (fun kv => "- `" ++ kv.1 ++ "`: " ++ kv.2))
  let l3 := l2 ++
    (if p.step.expects.isEmpty then
      ["", "When you have completed this step, call `continue_compiled_script` (no outputs needed)."]
     else
      ["", "When you have completed this step, call `continue_compiled_script` with the outputs."])
  String.intercalate "\n" l3

/-- Models `PendingNLScript.format` of `executor.py`. -/
def PendingNLScriptV.format (p : PendingNLScriptV) : String :=
  "## Natural Language Command: `" ++ p.name ++ "`\n\n" ++ p.content ++ "\n\n" ++
    "---\n\n" ++
    "When you have completed this command, call `finish_nl_script` to mark it complete."

/-- Models `PendingNLFallback.format` of `executor.py`. -/
def PendingNLFallbackV.format (p : PendingNLFallbackV) : String :=
  let stack_info := if strContains p.stack_path " > " then "**Stack:** `" ++ p.stack_path ++ "`" else ""
  let parts0 := ["## Exception in Compiled Script: `" ++ p.script_name ++ "`"]
  let parts1 := parts0 ++ (if stack_info = "" then [] else [stack_info])
  let parts2 := parts1 ++
    ["**Step " ++ toString p.step_index ++ " failed with an exception.** " ++
       "Falling back to manual execution of the original script.",
     "",
     "### Failed Step",
     "",
     "`" ++ p.exception.step_description ++ "`",
     "",
     "### Exception",
     "",
     "```\n" ++ p.exception.exception ++ "\n```"]
  let parts3 := parts2 ++
    (if p.nl_source = "" then []
     else ["", "### Original Script Instructions", "", p.nl_source])
  let parts4 := parts3 ++
    ["", "---", "",
     "**Follow the instructions above to complete this task manually.** " ++
       "When done, call `finish_nl_script` to mark it complete."]
  String.intercalate "\n" parts4

/-- The formatter shared by the three pending variants. -/
def PendingV.format : PendingV → String
  | .llmStep p => p.format
  | .nlScript p => p.format
  | .nlFallback p => p.format

/-- Models `McpScriptExecutor` of `executor.py`. The head of `stack` is the
top frame (Python's `stack[-1]`). -/
structure McpScriptExecutor where
  working_dir : String
  stack : List ExecutionFrame := []
  recently_executed_steps : List ExecutedStep := []

/-- Models `McpScriptExecutor.get_stack_path` (Python iterates the stack from
bottom to top, hence the reversal here). -/
def McpScriptExecutor.get_stack_path (e : McpScriptExecutor) : String :=
  if e.stack.isEmpty then ""
  else
    String.intercalate " > " (e.stack.reverse.map (fun fr =>
      match fr with
      | .nl f => f.script_name
      | .compiled f => f.script_name ++ "[" ++ toString f.step_index ++ "]"))

/-- Models the mutating `McpScriptExecutor.pending` property: derives the
pending value from the stack, setting `has_shown_nl_source` and lazily pulling
the top frame's current step as the Python property does; returns the value
together with the updated executor. -/
def pendingM (e : McpScriptExecutor) : Option PendingV × McpScriptExecutor :=
  match e.stack with
  | [] => (none, e)
  | .compiled f :: rest =>
    match f.exception with
    | some exc =>
      let nl_source := if f.has_shown_nl_source then "" else loadNlSource (.compiled f)
      let f' := { f with has_shown_nl_source := true }
      let e' := { e with stack := .compiled f' :: rest }
      let p : PendingNLFallbackV :=
        { script_name := f.script_name, nl_source := nl_source, exception := exc,
          step_index := f.step_index, stack_path := e'.get_stack_path }
      (some (.nlFallback p), e')
    | none =>
      match f.currentStepM with
      | (some (.llm l), f₁) =>
        let context := if f₁.has_shown_nl_source then ""
          else "## Script Context: `" ++ f₁.script_name ++ "`\n\n" ++
            loadNlSource (.compiled f₁) ++ "\n\n---\n\n"
        let f₂ := { f₁ with has_shown_nl_source := true }
        let e' := { e with stack := .compiled f₂ :: rest }
        let p : PendingLlmStepV :=
          { step := l, script_name := f₂.script_name, step_index := f₂.step_index,
            stack_path := e'.get_stack_path, context := context }
        (some (.llmStep p), e')
      | (_, f₁) => (none, { e with stack := .compiled f₁ :: rest })
  | .nl f :: _ =>
    (some (.nlScript { name := f.script_name, content := loadNlSource (.nl f) }), e)

/-- Evaluates the `pending` property for its side effects only, modelling a
Python `assert`/`isinstance` access that discards the value. -/
def pendEval (e : McpScriptExecutor) : McpScriptExecutor := (pendingM e).2

/-- Models a loaded script returned by `load_script` of `loading.py`: either a
compiled script (with the generator the module's `execute(request)` returned)
or an NL command. `target_name` is `loaded.target.name`, and `nl_raw` the
content of the resolved target's NL source file. -/
inductive LoadedScriptV where
  | compiledS (target_name : String) (nl_raw : String) (comp : Comp)
  | nlS (target_name : String) (nl_raw : String)

/-- The external script-resolution collaborator (`resolve_target` plus module
loading), abstracted per the specification's `Load(name) -> Script` contract:
maps a normalized name and request to a loaded script, or to the message of the
`ScriptLoadError` raised. -/
def Registry := String → String → Except String LoadedScriptV

/-- Models `load_script` of `loading.py`: normalizes colons to slashes and
defers to the resolution collaborator. -/
def load_script (reg : Registry) (name request : String) : Except String LoadedScriptV :=
  reg (normalizeName name) request

/-- Models the outcome of `McpScriptExecutor._execute_auto_step`: either an
`AutoExecutionError` was raised (carrying the original exception text and the
captured output) or an `AutoResult` was produced. -/
inductive AutoOutcome where
  | raised (original_exception : String) (output : String)
  | result (r : AutoResultV)

/-- The auto-execution boundary (`AutoExecutorProtocol`): a stateless function
of the step and the working directory. -/
def AutoExec := AutoV → String → AutoOutcome

/-- Models `RunResult` of `executor.py`. -/
structure RunResult where
  executed_steps : List ExecutedStep
  output_text : String
  pending : Option PendingV
deriving DecidableEq, Repr

/-- Models `McpScriptExecutor._build_result`: package the recently executed
steps with the pending value and clear the trail. -/
def buildResultM (e : McpScriptExecutor) (p : Option PendingV) :
    RunResult × McpScriptExecutor :=
  ({ executed_steps := e.recently_executed_steps, output_text := "", pending := p },
   { e with recently_executed_steps := [] })

/-- Models `McpScriptExecutor._pop_frame`: pop the completed compiled frame
and, when the new top is a compiled frame whose current step is a
`CallScript`, synthesize a success `ScriptCallResult` and advance it. Popping
an NL frame would fail the Python assertion and is unreachable from the run
loop. -/
def popFrameM (e : McpScriptExecutor) : McpScriptExecutor :=
  match e.stack with
  | [] => e
  | .nl _ :: rest => { e with stack := rest }
  | .compiled cf :: rest =>
    let steps_executed := cf.step_index
    match rest with
    | [] => { e with stack := [] }
    | .nl _ :: _ => { e with stack := rest }
    | .compiled pf :: rest2 =>
      match pf.currentStepM with
      | (some (.callScript cs), pf₁) =>
        let result : ScriptCallResultV :=
          { success := true,
            summary := "Completed " ++ cf.script_name ++ " in " ++ toString steps_executed ++ " steps",
            aborted := false, steps_executed := steps_executed, exception := none }
        let exitStep : ExecutedStep :=
          { script_name := pf₁.script_name, step_index := pf₁.step_index,
            step := .callScript cs, result := some (.script result), is_exit := true }
        { e with stack := .compiled (pf₁.advance (.script result)) :: rest2,
                 recently_executed_steps := e.recently_executed_steps ++ [exitStep] }
      | (_, pf₁) => { e with stack := .compiled pf₁ :: rest2 }

/-- Models the error-detail text built for a soft auto failure in
`run_until_llm` (Python renders a `None` error as the string `None`). -/
def errorDetailFor (r : AutoResultV) : String :=
  match r with
  | .shellResult _ exit_code output =>
    "exit code " ++ toString exit_code ++
      (if output = "" then "" else "\n\nOutput:\n" ++ output)
  | .callResult _ _ error output =>
    "Error: " ++ (match error with | some s => s | none => "None") ++
      (if output = "" then "" else "\n\nOutput:\n" ++ output)
  | .autoException _ => ""

/-- Models the one-off error-handling `Llm` step synthesized by
`run_until_llm` for a soft auto failure. -/
def errorStepFor (a : AutoV) (r : AutoResultV) : LlmV :=
  { prompt := "The step `" ++ a.context ++ "` failed.\n\n" ++
      "Command: `" ++ a.description ++ "`\n" ++ errorDetailFor r ++
      "\n\nPlease handle this error and decide how to proceed.",
    expects := [] }

/-- The outcome of one iteration of the `run_until_llm` while-loop: either the
loop continues with the updated state, or the method returns a `RunResult`. -/
inductive LoopOut where
  | cont (e : McpScriptExecutor)
  | stop (r : RunResult) (e : McpScriptExecutor)

/-- Models one iteration of the `while self.stack:` loop of
`McpScriptExecutor.run_until_llm` (the empty-stack case models the loop
exiting and the method returning `self._build_result(None)`). Python `assert`
statements that read the `pending` property are modelled by `pendEval`, since
that property access mutates the frame flags. -/
def runStep (reg : Registry) (ax : AutoExec) (e : McpScriptExecutor) : LoopOut :=
  match e.stack with
  | [] =>
    let (r, e₁) := buildResultM e none
    .stop r e₁
  | .nl _ :: _ =>
    let (p, e₁) := pendingM e
    let (r, e₂) := buildResultM e₁ p
    .stop r e₂
  | .compiled f :: rest =>
    if f.exception.isSome then
      let (p, e₁) := pendingM e
      let (r, e₂) := buildResultM e₁ p
      .stop r e₂
    else
      let (s?, f₁) := f.currentStepM
      let e₁ : McpScriptExecutor := { e with stack := .compiled f₁ :: rest }
      match s? with
      | none => .cont (popFrameM e₁)
      | some (.llm _) =>
        let e₂ := pendEval (pendEval e₁)
        let (p, e₃) := pendingM e₂
        let (r, e₄) := buildResultM e₃ p
        .stop r e₄
      | some (.callScript c) =>
        let entry : ExecutedStep :=
          { script_name := f₁.script_name, step_index := f₁.step_index,
            step := .callScript c, is_entry := true }
        let e₂ := { e₁ with recently_executed_steps := e₁.recently_executed_steps ++ [entry] }
        match load_script reg c.name c.request with
        | .error msg =>
          let result : ScriptCallResultV :=
            { success := false, summary := msg, aborted := true,
              steps_executed := 0, exception := none }
          let exitStep : ExecutedStep :=
            { script_name := f₁.script_name, step_index := f₁.step_index,
              step := .callScript c, result := some (.script result), is_exit := true }
          let e₃ := { e₂ with recently_executed_steps := e₂.recently_executed_steps ++ [exitStep] }
          .cont { e₃ with stack := .compiled (f₁.advance (.script result)) :: rest }
        | .ok (.nlS tname nlraw) =>
          let nested_wd := c.working_dir.getD f₁.working_dir
          let newFrame : NLScriptFrame :=
            { script_name := tname, working_dir := nested_wd, nl_raw := nlraw,
              arguments := c.request }
          let e₃ := { e₂ with stack := .nl newFrame :: .compiled f₁ :: rest }
          let e₄ := pendEval (pendEval e₃)
          let (p, e₅) := pendingM e₄
          let (r, e₆) := buildResultM e₅ p
          .stop r e₆
        | .ok (.compiledS tname nlraw comp) =>
          let nested_wd := c.working_dir.getD f₁.working_dir
          let newFrame : CompiledScriptFrame :=
            { script_name := tname, working_dir := nested_wd, nl_raw := nlraw,
              arguments := c.request, gen := .unstarted comp }
          .cont { e₂ with stack := .compiled newFrame :: .compiled f₁ :: rest }
      | some (.auto a) =>
        match ax a f₁.working_dir with
        | .raised origExc out =>
          let auto_exception : AutoExceptionV :=
            { exception := origExc, step_description := a.description, output := out }
          let entry : ExecutedStep :=
            { script_name := f₁.script_name, step_index := f₁.step_index,
              step := .auto a, result := some (.auto (.autoException auto_exception)) }
          let f₂ := { f₁ with exception := some auto_exception }
          let e₂ : McpScriptExecutor :=
            { e₁ with stack := .compiled f₂ :: rest,
                      recently_executed_steps := e₁.recently_executed_steps ++ [entry] }
          let (p, e₃) := pendingM e₂
          let (r, e₄) := buildResultM e₃ p
          .stop r e₄
        | .result (.autoException exc) =>
          let entry : ExecutedStep :=
            { script_name := f₁.script_name, step_index := f₁.step_index,
              step := .auto a, result := some (.auto (.autoException exc)) }
          let f₂ := { f₁ with exception := some exc }
          let e₂ : McpScriptExecutor :=
            { e₁ with stack := .compiled f₂ :: rest,
                      recently_executed_steps := e₁.recently_executed_steps ++ [entry] }
          let (p, e₃) := pendingM e₂
          let (r, e₄) := buildResultM e₃ p
          .stop r e₄
        | .result r =>
          let entry : ExecutedStep :=
            { script_name := f₁.script_name, step_index := f₁.step_index,
              step := .auto a, result := some (.auto r) }
          let e₂ : McpScriptExecutor :=
            { e₁ with recently_executed_steps := e₁.recently_executed_steps ++ [entry] }
          if r.success = false then
            let error_step := errorStepFor a r
            let f₂ := { f₁ with current_step := some (.llm error_step) }
            let e₃ : McpScriptExecutor := { e₂ with stack := .compiled f₂ :: rest }
            let e₄ := pendEval (pendEval e₃)
            let (p, e₅) := pendingM e₄
            let (rr, e₆) := buildResultM e₅ p
            .stop rr e₆
          else
            .cont { e₂ with stack := .compiled (f₁.advance (.auto r)) :: rest }

/-- Models `McpScriptExecutor.run_until_llm` as fuelled iteration of the loop
body; `none` means the fuel ran out before the loop reached a suspension
point (the Python loop may genuinely diverge on self-invoking scripts). -/
def runUntilLlm (reg : Registry) (ax : AutoExec) :
    Nat → McpScriptExecutor → Option (RunResult × McpScriptExecutor)
  | 0, _ => none
  | fuel + 1, e =>
    match runStep reg ax e with
    | .cont e' => runUntilLlm reg ax fuel e'
    | .stop r e' => some (r, e')

/-- Models `McpScriptExecutor.continue_after_llm`. The `RuntimeError`s raised
on protocol misuse become `Except.error`; the updated executor (protocol
misuse leaves prior `pending`-property side effects in place, hence the state
is threaded even on errors). -/
def continueAfterLlm (e : McpScriptExecutor) (outputs : List (String × String)) :
    Except String Bool × McpScriptExecutor :=
  let (p₁, e₁) := pendingM e
  match p₁ with
  | some (.nlScript _) | some (.nlFallback _) =>
    (.error "An NL script is pending. Call finish_nl_script instead of continue_compiled_script.",
     e₁)
  | _ =>
    let (p₂, e₂) := pendingM e₁
    match p₂ with
    | some (.llmStep _) =>
      match e₂.stack with
      | .compiled f :: rest =>
        let llm_result : ResultV := .llm true outputs
        let f₁ := f.advance llm_result
        let (s?, f₂) := f₁.currentStepM
        let e₃ : McpScriptExecutor := { e₂ with stack := .compiled f₂ :: rest }
        match s? with
        | none => (.ok (decide (e₃.stack.length > 1)), e₃)
        | some _ => (.ok true, e₃)
      | _ => (.error "expected a compiled frame at the top of the stack", e₂)
    | _ => (.error "No pending llm step to continue from", e₂)

/-- Models `McpScriptExecutor.complete_nl_script`: pop the pending NL script or
exception-fallback frame, and advance a compiled parent waiting on the
`CallScript` that produced it. -/
def completeNlScriptM (e : McpScriptExecutor) : Except String Unit × McpScriptExecutor :=
  let (p₁, e₁) := pendingM e
  match p₁ with
  | some (.nlScript _) =>
    match e₁.stack with
    | .nl nlf :: rest =>
      match rest with
      | .compiled pf :: rest2 =>
        match pf.currentStepM with
        | (some (.callScript cs), pf₁) =>
          let call_result : ScriptCallResultV :=
            { success := true, summary := "Completed: " ++ nlf.script_name,
              aborted := false, steps_executed := 1, exception := none }
          let exitStep : ExecutedStep :=
            { script_name := pf₁.script_name, step_index := pf₁.step_index,
              step := .callScript cs, result := some (.script call_result), is_exit := true }
          let e₁' : McpScriptExecutor :=
            { e₁ with stack := .compiled (pf₁.advance (.script call_result)) :: rest2,
                      recently_executed_steps := e₁.recently_executed_steps ++ [exitStep] }
          (.ok (), e₁')
        | (_, pf₁) => (.ok (), { e₁ with stack := .compiled pf₁ :: rest2 })
      | _ => (.ok (), { e₁ with stack := rest })
    | _ => (.error "expected an NL script frame at the top of the stack", e₁)
  | _ =>
    let (p₂, e₂) := pendingM e₁
    match p₂ with
    | some (.nlFallback _) =>
      match e₂.stack with
      | .compiled ff :: rest =>
        match ff.exception with
        | some auto_exception =>
          match rest with
          | .compiled pf :: rest2 =>
            match pf.currentStepM with
            | (some (.callScript cs), pf₁) =>
              let call_result : ScriptCallResultV :=
                { success := false, summary := "Completed with fallback: " ++ ff.script_name,
                  aborted := false, steps_executed := ff.step_index + 1,
                  exception := some auto_exception.exception }
              let exitStep : ExecutedStep :=
                { script_name := pf₁.script_name, step_index := pf₁.step_index,
                  step := .callScript cs, result := some (.script call_result), is_exit := true }
              let e₂' : McpScriptExecutor :=
                { e₂ with stack := .compiled (pf₁.advance (.script call_result)) :: rest2,
                          recently_executed_steps := e₂.recently_executed_steps ++ [exitStep] }
              (.ok (), e₂')
            | (_, pf₁) => (.ok (), { e₂ with stack := .compiled pf₁ :: rest2 })
          | _ => (.ok (), { e₂ with stack := rest })
        | none => (.error "faulted frame has no exception", e₂)
      | _ => (.error "expected a compiled frame at the top of the stack", e₂)
    | _ => (.error "No pending NL script to complete", e₂)

/-- Models `McpScriptExecutor.push_script`: resolve a script through the
collaborator and push the corresponding frame ( load errors propagate to the
caller). -/
def pushScriptM (reg : Registry) (script_name arguments working_dir : String)
    (e : McpScriptExecutor) : Except String McpScriptExecutor :=
  match load_script reg script_name arguments with
  | .error msg => .error msg
  | .ok (.nlS tname nlraw) =>
    let fr : NLScriptFrame :=
      { script_name := tname, working_dir := working_dir, nl_raw := nlraw,
        arguments := arguments }
    .ok { e with stack := .nl fr :: e.stack }
  | .ok (.compiledS tname nlraw comp) =>
    let fr : CompiledScriptFrame :=
      { script_name := tname, working_dir := working_dir, nl_raw := nlraw,
        arguments := arguments, gen := .unstarted comp }
    .ok { e with stack := .compiled fr :: e.stack }

/-- Models the `McpScriptExecutor.script_name` property (root script). -/
def McpScriptExecutor.script_name (e : McpScriptExecutor) : Option String :=
  match e.stack.getLast? with
  | some (.compiled f) => some f.script_name
  | some (.nl f) => some f.script_name
  | none => none

/-- Models `_format_executed_steps` of `server.py` for one trail entry
(returning its display lines; non-auto steps that are neither entry nor exit
markers produce no line). -/
def formatExecutedStep (s : ExecutedStep) : List String :=
  let px := s.script_name ++ "[" ++ toString s.step_index ++ "]"
  if s.is_entry then
    match s.step with
    | .callScript c => ["- `" ++ px ++ "`: ↪ Calling `" ++ c.description ++ "`"]
    | _ => []
  else if s.is_exit then
    match s.step with
    | .callScript c =>
      match s.result with
      | some r =>
        ["- `" ++ px ++ "`: " ++ (if r.success then "✓" else "✗") ++
          " Returned from `" ++ c.name ++ "`"]
      | none => ["- `" ++ px ++ "`: ↩ Returned from `" ++ c.name ++ "`"]
    | _ => []
  else
    match s.step with
    | .auto a =>
      let ok := match s.result with | some r => r.success | none => false
      let base := ["- `" ++ px ++ "`: " ++ (if ok then "✓" else "✗") ++ " `" ++ a.description ++ "`"]
      let outLines :=
        match s.output with
        | some o => ["", "  <output>"] ++ (linesOf o).map (fun l => "  " ++ l) ++ ["  </output>"]
        | none => []
      let excLines :=
        match s.result with
        | some (.auto (.autoException ex)) =>
          ["", "  <exception>"] ++ (linesOf ex.exception).map (fun l => "  " ++ l) ++
            ["  </exception>"]
        | _ => []
      base ++ outLines ++ excLines
    | _ => []

/-- Models `_format_executed_steps` of `server.py`. -/
def formatExecutedSteps (steps : List ExecutedStep) : String :=
  if steps.isEmpty then ""
  else String.intercalate "\n" ("### Steps executed:" :: (steps.map formatExecutedStep).flatten)

/-- Models `_format_run_result` of `server.py`. -/
def formatRunResult (r : RunResult) : String :=
  let parts :=
    (if r.executed_steps.isEmpty then [] else [formatExecutedSteps r.executed_steps]) ++
    (match r.pending with
     | none => ["\n## All Steps Completed\n\nThe script has finished execution."]
     | some p => [p.format])
  if parts.isEmpty then "No output." else String.intercalate "\n\n" parts

/-- Models `MekaraServer._handle_run_result`. -/
def handleRunResult (r : RunResult) : String :=
  let response := formatRunResult r
  if response = "" then "Script executed but produced no output." else response

/-- Models `MekaraServer.start` (the `working_dir` parameter defaults to the
executor's working directory; fuel exhaustion of the run loop yields
`none`). -/
def serverStart (reg : Registry) (ax : AutoExec) (fuel : Nat)
    (name arguments : String) (working_dir : Option String)
    (e : McpScriptExecutor) : Option (String × McpScriptExecutor) :=
  let name := normalizeName name
  let resolved_wd := working_dir.getD e.working_dir
  match pushScriptM reg name arguments resolved_wd e with
  | .error msg => some ("Error: " ++ msg, e)
  | .ok e₁ =>
    match runUntilLlm reg ax fuel e₁ with
    | none => none
    | some (r, e₂) => some (handleRunResult r, e₂)

/-- Models `MekaraServer.continue_compiled_script`. The three `pending`
property reads of the Python method are modelled in order, each threading its
side effects. -/
def serverContinue (reg : Registry) (ax : AutoExec) (fuel : Nat)
    (outputs : List (String × String)) (e : McpScriptExecutor) :
    Option (String × McpScriptExecutor) :=
  let (p₁, e₁) := pendingM e
  match p₁ with
  | some (.nlScript p) =>
    some ("Error: Natural language script `" ++ p.name ++ "` is pending. " ++
      "Call `finish_nl_script` instead of `continue_compiled_script` once all " ++
      "steps are complete.", e₁)
  | _ =>
    let (p₂, e₂) := pendingM e₁
    match p₂ with
    | some (.nlFallback p) =>
      some ("Error: Compiled script `" ++ p.script_name ++ "` needs to be completed manually. " ++
        "Call `finish_nl_script` instead of `continue_compiled_script` once all " ++
        "steps are complete.", e₂)
    | _ =>
      let (p₃, e₃) := pendingM e₂
      match p₃ with
      | none => some ("Error: No LLM step is pending. Nothing to continue.", e₃)
      | some _ =>
        match continueAfterLlm e₃ outputs with
        | (.error msg, e₄) => some ("RuntimeError: " ++ msg, e₄)
        | (.ok has_more, e₄) =>
          if has_more then
            match runUntilLlm reg ax fuel e₄ with
            | none => none
            | some (r, e₅) => some (handleRunResult r, e₅)
          else
            some ("## All Steps Completed\n\nThe script has finished execution.", e₄)

/-- Models `MekaraServer.finish_nl_script`. -/
def serverFinish (reg : Registry) (ax : AutoExec) (fuel : Nat)
    (e : McpScriptExecutor) : Option (String × McpScriptExecutor) :=
  let (p₁, e₁) := pendingM e
  match p₁ with
  | some (.nlScript _) | some (.nlFallback _) =>
    match completeNlScriptM e₁ with
    | (.error msg, e₂) => some ("RuntimeError: " ++ msg, e₂)
    | (.ok _, e₂) =>
      match runUntilLlm reg ax fuel e₂ with
      | none => none
      | some (r, e₃) => some (handleRunResult r, e₃)
  | _ =>
    let (p₂, e₂) := pendingM e₁
    match p₂ with
    | some (.llmStep _) =>
      some ("Error: A compiled script LLM step is pending, not an NL script. " ++
        "Call `continue_compiled_script` instead.", e₂)
    | _ => some ("Error: No NL script is pending. Use `start` to begin a script.", e₂)

/-- Models `MekaraServer.status`: the Python method reads the `pending`
property twice (once for the `None` test, once for `.format()`); a second
read cannot move from `some` to `none`, so the inner `none` branch is
unreachable. -/
def serverStatus (e : McpScriptExecutor) : String × McpScriptExecutor :=
  let (p₁, e₁) := pendingM e
  match p₁ with
  | some _ =>
    match pendingM e₁ with
    | (some p, e₂) => (p.format, e₂)
    | (none, e₂) => ("No script is currently running.", e₂)
  | none =>
    if e₁.stack.isEmpty then ("No script is currently running.", e₁)
    else
      let rootName :=
        match e₁.script_name with
        | some n => n
        | none => "None"
      ("## Script: `" ++ rootName ++ "`\n" ++
        "Stack depth: " ++ toString e₁.stack.length ++ "\n" ++
        "Stack path: `" ++ e₁.get_stack_path ++ "`", e₁)

/-- The executor a fresh `MekaraServer` owns: empty stack, empty trail. -/
def initExec (wd : String) : McpScriptExecutor :=
  { working_dir := wd, stack := [], recently_executed_steps := [] }

/-- States of the server's executor reachable through the public tool surface
(`start`, `continue_compiled_script`, `finish_nl_script`, `status`), for any
fuel that lets the run loop finish. -/
inductive Reachable (reg : Registry) (ax : AutoExec) (wd : String) :
    McpScriptExecutor → Prop where
  | init : Reachable reg ax wd (initExec wd)
  | startOp {e e' : McpScriptExecutor} {fuel : Nat} {name arguments txt : String}
      {wdo : Option String} : Reachable reg ax wd e →
      serverStart reg ax fuel name arguments wdo e = some (txt, e') →
      Reachable reg ax wd e'
  | continueOp {e e' : McpScriptExecutor} {fuel : Nat}
      {outputs : List (String × String)} {txt : String} : Reachable reg ax wd e →
      serverContinue reg ax fuel outputs e = some (txt, e') →
      Reachable reg ax wd e'
  | finishOp {e e' : McpScriptExecutor} {fuel : Nat} {txt : String} :
      Reachable reg ax wd e →
      serverFinish reg ax fuel e = some (txt, e') →
      Reachable reg ax wd e'
  | statusOp {e e' : McpScriptExecutor} {txt : String} : Reachable reg ax wd e →
      serverStatus e = (txt, e') →
      Reachable reg ax wd e'

/-! ### VCR cassette (`src/mekara/vcr/cassette.py`, `src/mekara/vcr/events.py`)

The YAML values the cassette serializes are modelled by `YVal`. The emitter
the cassette calls — `yaml.dump` with `default_flow_style=False`,
`allow_unicode=True`, `sort_keys=False` and the module's literal-block
representer for multi-line strings — belongs to PyYAML, an external
dependency whose emitter folds long single-line plain scalars at a
column-dependent width of 80 and decides quoting per scalar. It is therefore
abstracted as a collaborator (`YamlDumper`, like the script-resolution
`Registry`), and the byte-level save theorems are stated against that
interface. `renderEntriesF` below is *not* a model of PyYAML: it is the
width-unbounded block-style rendering — keys in insertion order as
`key: value` lines, nested mappings indented by two spaces, empty containers
in flow style, multi-line strings as literal blocks, and **no** width-80
folding or scalar quoting/escaping. It coincides with PyYAML's configured
output exactly on documents whose single-line scalars are short enough that
no folding triggers and contain no characters requiring quotes; the concrete
counterexample below evaluates it only on such inputs. -/

/-- A YAML value as produced by the events' `to_dict` methods: string, bool,
int or null scalars, and string-keyed mappings. -/
inductive YVal where
  | str (s : String)
  | bool (b : Bool)
  | int (n : Int)
  | null
  | map (entries : List (String × YVal))

/-- Renders the entries of a YAML block mapping, in order, as output lines at
relative indent 0, in the width-unbounded idealization described above (no
width-80 folding of long single-line scalars, no quoting/escaping — faithful
to PyYAML only where neither triggers). The recursion is fuelled by the
nesting depth (structural recursion on the fuel, so that the renderer
evaluates inside the kernel); the event dictionaries of `events.py` nest at
most three levels, far below the fuel `renderEntries` supplies, so the
fuel-exhausted branch is never taken for them. -/
def renderEntriesF : Nat → List (String × YVal) → List String
  | 0, _ => []
  | fuel + 1, entries =>
    (entries.map (fun kv =>
      match kv.2 with
      | .map [] => [kv.1 ++ ": \x7b\x7d"]
      | .map (y :: ys) =>
        (kv.1 ++ ":") :: (renderEntriesF fuel (y :: ys)).map (fun l => "  " ++ l)
      | .bool b => [kv.1 ++ ": " ++ (if b then "true" else "false")]
      | .int n => [kv.1 ++ ": " ++ toString n]
      | .null => [kv.1 ++ ": null"]
      | .str s =>
        if s = "" then [kv.1 ++ ": ''"]
        else if strContains s "\n" then
          if endsWithNewline s then
            (kv.1 ++ ": |") :: (linesOf (dropLastChar s)).map (fun l => "  " ++ l)
          else
            (kv.1 ++ ": |-") :: (linesOf s).map (fun l => "  " ++ l)
        else [kv.1 ++ ": " ++ s])).flatten

/-- Renders the entries of a YAML block mapping, in order. -/
def renderEntries (entries : List (String × YVal)) : List String :=
  renderEntriesF 8 entries

/-- Renders a single `key: value` mapping entry of a YAML block mapping. -/
def renderEntry (kv : String × YVal) : List String :=
  renderEntries [kv]

/-- Models `AutoStepInputs` of `events.py`. -/
structure AutoStepInputsV where
  action_type : String
  action : String
  context : Option String
  kwargs : Option (List (String × String))
deriving DecidableEq, Repr

/-- Models `AutoStepInputs.to_dict`: `kwargs` is included only when present. -/
def AutoStepInputsV.toDict (i : AutoStepInputsV) : List (String × YVal) :=
  [("action_type", .str i.action_type), ("action", .str i.action),
   ("context", match i.context with | some c => .str c | none => .null)] ++
  (match i.kwargs with
   | some kw => [("kwargs", .map (kw.map (fun p => (p.1, YVal.str p.2))))]
   | none => [])

/-- Models the `AutoStepResult = ShellResultData | CallResultData |
AutoExceptionData` union of `events.py`. -/
inductive AutoStepResultV where
  | shellD (success : Bool) (exit_code : Int) (output : String)
  | callD (success : Bool) (value : String) (error : Option String) (output : String)
  | exceptionD (success : Bool) (exception : String) (step_description : String) (output : String)
deriving DecidableEq, Repr

/-- Models the `to_dict` methods of the three recorded auto-step results. -/
def AutoStepResultV.toDict : AutoStepResultV → List (String × YVal)
  | .shellD success exit_code output =>
    [("type", .str "shell"), ("success", .bool success), ("exit_code", .int exit_code),
     ("output", .str output)]
  | .callD success value error output =>
    [("type", .str "call"), ("success", .bool success), ("value", .str value),
     ("error", match error with | some s => .str s | none => .null),
     ("output", .str output)]
  | .exceptionD success exception step_description output =>
    [("type", .str "exception"), ("success", .bool success), ("exception", .str exception),
     ("step_description", .str step_description), ("output", .str output)]

/-- Models the `VcrEvent` union of `events.py` (the four MCP input events, the
tool output event, and the auto-step boundary event). -/
inductive VcrEvent where
  | mcpStartInput (name arguments : String) (working_dir : Option String)
  | mcpContinueInput (outputs : List (String × String))
  | mcpStatusInput
  | mcpFinishInput
  | mcpToolOutput (tool output : String)
  | autoStep (working_dir : String) (inputs : AutoStepInputsV) (result : AutoStepResultV)
deriving DecidableEq, Repr

/-- Models the `to_dict` methods of the six event classes. -/
def VcrEvent.toDict : VcrEvent → List (String × YVal)
  | .mcpStartInput name arguments working_dir =>
    [("type", .str "mcp_tool_input"), ("tool", .str "start"),
     ("input", .map [("name", .str name), ("arguments", .str arguments),
       ("working_dir", match working_dir with | some w => .str w | none => .null)])]
  | .mcpContinueInput outputs =>
    [("type", .str "mcp_tool_input"), ("tool", .str "continue_compiled_script"),
     ("input", .map [("outputs", .map (outputs.map (fun p => (p.1, YVal.str p.2))))])]
  | .mcpStatusInput =>
    [("type", .str "mcp_tool_input"), ("tool", .str "status"), ("input", .map [])]
  | .mcpFinishInput =>
    [("type", .str "mcp_tool_input"), ("tool", .str "finish_nl_script"), ("input", .map [])]
  | .mcpToolOutput tool output =>
    [("type", .str "mcp_tool_output"), ("tool", .str tool), ("output", .str output)]
  | .autoStep working_dir inputs result =>
    [("type", .str "auto_step"), ("working_dir", .str working_dir),
     ("inputs", .map inputs.toDict), ("result", .map result.toDict)]

/-- The event classes usable as the `event_type` argument of
`consume_event` (`isinstance` verification against one event class). -/
inductive VcrEventClass where
  | mcpStartInput
  | mcpContinueInput
  | mcpStatusInput
  | mcpFinishInput
  | mcpToolOutput
  | autoStep
deriving DecidableEq, Repr

/-- The runtime class of an event. -/
def VcrEvent.classOf : VcrEvent → VcrEventClass
  | .mcpStartInput .. => .mcpStartInput
  | .mcpContinueInput .. => .mcpContinueInput
  | .mcpStatusInput => .mcpStatusInput
  | .mcpFinishInput => .mcpFinishInput
  | .mcpToolOutput .. => .mcpToolOutput
  | .autoStep .. => .autoStep

/-- Models `isinstance(event, event_type)`. -/
def VcrEvent.isInstanceOf (ev : VcrEvent) (t : VcrEventClass) : Bool :=
  ev.classOf = t

/-- The Python class name of an event class (used in the mismatch message). -/
def VcrEventClass.pyName : VcrEventClass → String
  | .mcpStartInput => "McpStartInputEvent"
  | .mcpContinueInput => "McpContinueCompiledScriptInputEvent"
  | .mcpStatusInput => "McpStatusInputEvent"
  | .mcpFinishInput => "McpFinishNLScriptInputEvent"
  | .mcpToolOutput => "McpToolOutputEvent"
  | .autoStep => "AutoStepEvent"

/-- Models `CassetteMode = Literal["record", "replay"]`. -/
inductive CassetteMode where
  | record
  | replay
deriving DecidableEq, Repr

/-- Models `VCRCassette`. The bytes on disk at `self.path` are modelled by
`file` (the empty string models a not-yet-created file, which `open(..., "a")`
treats like an empty one). -/
structure VCRCassette where
  mode : CassetteMode
  initial_state : List (String × String)
  events : List VcrEvent := []
  replay_event_index : Nat := 0
  last_saved_event_count : Nat := 0
  file : String := ""
deriving DecidableEq, Repr

/-- Models constructing a `VCRCassette` in record mode with the given
`initial_state`. -/
def initRecordCassette (initial_state : List (String × String)) : VCRCassette :=
  { mode := .record, initial_state := initial_state }

/-- Models `VCRCassette.record_event` (a `ValueError` in replay mode). -/
def VCRCassette.record_event (c : VCRCassette) (ev : VcrEvent) :
    Except String VCRCassette :=
  if c.mode ≠ .record then .error "Cannot record events while in replay mode."
  else .ok { c with events := c.events ++ [ev] }

/-- Models `VCRCassette.has_remaining_events`. -/
def VCRCassette.has_remaining_events (c : VCRCassette) : Except String Bool :=
  if c.mode ≠ .replay then .error "has_remaining_events() is only available in replay mode."
  else .ok (decide (c.replay_event_index < c.events.length))

/-- Models `VCRCassette.consume_event`: in replay mode return the next unread
event (optionally verifying its class) and advance the cursor; every error is
raised before the cursor increment, so the returned cassette is unchanged on
error. -/
def VCRCassette.consume_event (c : VCRCassette) (event_type : Option VcrEventClass) :
    Except String VcrEvent × VCRCassette :=
  if c.mode ≠ .replay then (.error "Cannot replay events while in record mode.", c)
  else
    match c.events.drop c.replay_event_index with
    | [] => (.error "VCR replay has no remaining recorded events.", c)
    | event :: _ =>
      match event_type with
      | some t =>
        if event.isInstanceOf t then
          (.ok event, { c with replay_event_index := c.replay_event_index + 1 })
        else
          (.error ("VCR replay event mismatch. Expected " ++ t.pyName ++ ", got " ++
            event.classOf.pyName ++ "."), c)
      | none => (.ok event, { c with replay_event_index := c.replay_event_index + 1 })

/-- Models `VCRCassette.replay_position`. -/
def VCRCassette.replay_position (c : VCRCassette) : Except String Nat :=
  if c.mode ≠ .replay then .error "Replay position is only available in replay mode."
  else .ok c.replay_event_index

/-- Joins output lines, terminating each with a newline. -/
def joinLines (ls : List String) : String :=
  ls.foldr (fun l acc => l ++ "\n" ++ acc) ""

/-- Python's `str.rstrip("\n")`: drops every trailing newline character. -/
def rstripNewlines (s : String) : String :=
  .mk ((s.data.reverse.dropWhile (· == '\n')).reverse)

/-- The reindentation loop of the incremental branch of `VCRCassette.save`,
applied to the dump text of one event: iterate the lines of
`event_yaml.rstrip("\n").split("\n")`, writing `- ` before each line that is
textually equal to `event_yaml.split("\n")[0]` (the source compares line
*text* against the first line, not the line index) and two spaces before the
others, each line newline-terminated. -/
def reindentItem (event_yaml : String) : String :=
  let first := (linesOf event_yaml).headD ""
  String.join ((linesOf (rstripNewlines event_yaml)).map
    (fun line => if line = first then "- " ++ line ++ "\n" else "  " ++ line ++ "\n"))

/-- The interface of `yaml.dump(..., default_flow_style=False,
allow_unicode=True, sort_keys=False)` with the module's literal-block string
representer, as `VCRCassette.save` calls it. PyYAML is an external dependency
(its emitter folds long single-line plain scalars at a column-dependent width
of 80 and decides quoting per scalar), so like the script-resolution
`Registry` it is abstracted as a collaborator: `dumpEventDoc` is the dump of
one event dictionary as its own root document, `dumpCassetteDoc` the dump of
the whole `initial_state`/`events` document. -/
structure YamlDumper where
  dumpEventDoc : List (String × YVal) → String
  dumpCassetteDoc : List (String × String) → List (List (String × YVal)) → String

/-- Models the text appended for one new event by the incremental branch of
`VCRCassette.save`: the event dictionary is dumped as its own root document
and reindented line by line into a list item. -/
def dumpListItemD (D : YamlDumper) (ev : VcrEvent) : String :=
  reindentItem (D.dumpEventDoc ev.toDict)

/-- The law relating the two dump shapes on which the byte-identity of
incremental saves with a single full dump rests: dumping a document with one
more event appends exactly the reindented root-level dump of that event.
Width-unbounded block emission satisfies it; PyYAML's width-80 folding of
long single-line plain scalars is column-dependent (in the nested document
the event scalars start two columns deeper than in the root-level dump), so
the real emitter does not guarantee it. -/
def YamlDumper.appendCoherent (D : YamlDumper) : Prop :=
  ∀ (st : List (String × String)) (evs : List VcrEvent) (ev : VcrEvent), evs ≠ [] →
    D.dumpCassetteDoc st ((evs ++ [ev]).map VcrEvent.toDict) =
      D.dumpCassetteDoc st (evs.map VcrEvent.toDict) ++ dumpListItemD D ev

/-- Models `VCRCassette.save` against the emitter `D`: a no-op in replay
mode; writes the full-document dump when nothing has been saved yet,
otherwise appends only the reindented per-event dumps of the events recorded
since the last save (and does nothing when there are none). -/
def VCRCassette.saveD (D : YamlDumper) (c : VCRCassette) : VCRCassette :=
  if c.mode ≠ .record then c
  else if c.last_saved_event_count = 0 then
    { c with file := D.dumpCassetteDoc c.initial_state (c.events.map VcrEvent.toDict),
             last_saved_event_count := c.events.length }
  else
    let new_events := c.events.drop c.last_saved_event_count
    if new_events.isEmpty then c
    else
      { c with file := c.file ++ String.join (new_events.map (dumpListItemD D)),
               last_saved_event_count := c.events.length }

/-- Records a list of events in order (in record mode `record_event` never
errors; the error branch is dead). -/
def recordMany (c : VCRCassette) (evs : List VcrEvent) : VCRCassette :=
  evs.foldl (fun c ev =>
    match c.record_event ev with
    | .ok c' => c'
    | .error _ => c) c

/-- Runs the record-mode usage pattern of the specification against the
emitter `D`: starting from a fresh record-mode cassette, repeatedly add a
batch of events and call `save`. -/
def runBatchesD (D : YamlDumper) (initial_state : List (String × String))
    (batches : List (List VcrEvent)) : VCRCassette :=
  batches.foldl (fun c b => (recordMany c b).saveD D) (initRecordCassette initial_state)

/-- The width-unbounded block-style emitter: block mappings with two-space
nesting, multi-line strings as literal blocks, and the event list rendered by
reindenting each event's root-level dump under `events:`. It coincides with
PyYAML's configured output exactly on documents where no width-80 folding or
scalar quoting triggers (single-line scalars shorter than the fold column and
free of special characters) — the concrete theorems below evaluate it only on
such inputs — and it satisfies the append-coherence law. -/
def unboundedDumper : YamlDumper :=
  { dumpEventDoc := fun d => joinLines (renderEntries d),
    dumpCassetteDoc := fun st dicts =>
      joinLines (renderEntry ("initial_state",
          .map (st.map (fun p => (p.1, YVal.str p.2))))) ++
        match dicts with
        | [] => "events: []\n"
        | ds => "events:\n" ++
            String.join (ds.map (fun d => reindentItem (joinLines (renderEntries d)))) }

/-! ### Lemmas: the generator model and the lazy step getter -/

theorem genNext_exhausted : genNext .exhausted = (none, .exhausted) := rfl

theorem genNext_none_exhausted {g g' : GenSt} (h : genNext g = (none, g')) :
    g' = .exhausted := by
  cases g with
  | unstarted c =>
    cases c with
    | done =>
      simp only [genNext] at h
      exact (Prod.ext_iff.mp h).2.symm
    | step s k => simp [genNext] at h
  | suspended k =>
    cases hk : k .noneV with
    | done =>
      simp only [genNext, hk] at h
      exact (Prod.ext_iff.mp h).2.symm
    | step s k' => simp [genNext, hk] at h
  | exhausted =>
    simp only [genNext] at h
    exact (Prod.ext_iff.mp h).2.symm

theorem currentStepM_cached {f : CompiledScriptFrame} {s : Step}
    (h : f.current_step = some s) : f.currentStepM = (some s, f) := by
  simp [CompiledScriptFrame.currentStepM, h]

theorem currentStepM_idem (f : CompiledScriptFrame) :
    (f.currentStepM.2).currentStepM = (f.currentStepM.1, f.currentStepM.2) := by
  cases hc : f.current_step with
  | some s => simp [CompiledScriptFrame.currentStepM, hc]
  | none =>
    rcases hg : genNext f.gen with ⟨s?, g⟩
    cases s? with
    | some s => simp [CompiledScriptFrame.currentStepM, hc, hg]
    | none =>
      have hgx : g = .exhausted := genNext_none_exhausted hg
      subst hgx
      simp [CompiledScriptFrame.currentStepM, hc, hg, genNext_exhausted]

theorem currentStepM_core {f : CompiledScriptFrame} :
    (f.currentStepM.2).script_name = f.script_name ∧
    (f.currentStepM.2).working_dir = f.working_dir ∧
    (f.currentStepM.2).nl_raw = f.nl_raw ∧
    (f.currentStepM.2).arguments = f.arguments ∧
    (f.currentStepM.2).step_index = f.step_index ∧
    (f.currentStepM.2).has_shown_nl_source = f.has_shown_nl_source ∧
    (f.currentStepM.2).exception = f.exception := by
  cases hc : f.current_step with
  | some s => simp [CompiledScriptFrame.currentStepM, hc]
  | none =>
    rcases hg : genNext f.gen with ⟨s?, g⟩
    cases s? <;> simp [CompiledScriptFrame.currentStepM, hc, hg]

theorem genSend_none_exhausted {g g' : GenSt} {r : ResultV}
    (h : genSend g r = (none, g')) : g' = .exhausted := by
  cases g with
  | unstarted c =>
    simp only [genSend] at h
    exact (Prod.ext_iff.mp h).2.symm
  | suspended k =>
    cases hk : k r with
    | done =>
      simp only [genSend, hk] at h
      exact (Prod.ext_iff.mp h).2.symm
    | step s k' => simp [genSend, hk] at h
  | exhausted =>
    simp only [genSend] at h
    exact (Prod.ext_iff.mp h).2.symm

theorem currentStepM_advance (f : CompiledScriptFrame) (r : ResultV) :
    (f.advance r).currentStepM = ((f.advance r).current_step, f.advance r) := by
  rcases hs : genSend f.gen r with ⟨s?, g⟩
  cases s? with
  | some s => simp [CompiledScriptFrame.advance, hs, CompiledScriptFrame.currentStepM]
  | none =>
    have hg : g = .exhausted := genSend_none_exhausted hs
    subst hg
    simp [CompiledScriptFrame.advance, hs, CompiledScriptFrame.currentStepM, genNext_exhausted]

theorem currentStepM_some_current {f : CompiledScriptFrame} {s : Step}
    (h : f.currentStepM.1 = some s) : (f.currentStepM.2).current_step = some s := by
  cases hc : f.current_step with
  | some s' => simp [CompiledScriptFrame.currentStepM, hc] at h ⊢; exact h
  | none =>
    rcases hg : genNext f.gen with ⟨s?, g⟩
    cases s? with
    | some s' => simp [CompiledScriptFrame.currentStepM, hc, hg] at h ⊢; exact h
    | none => simp [CompiledScriptFrame.currentStepM, hc, hg] at h

/-! ### Lemmas: the pending derivation -/

/-- Clears the one-shot NL-source presentation field of a pending value (the
`context` of a pending LLM step, the `nl_source` of a fallback): re-deriving
`pending` returns the same value with this field blanked. -/
def PendingV.eraseOnce : PendingV → PendingV
  | .llmStep p => .llmStep { p with context := "" }
  | .nlScript p => .nlScript p
  | .nlFallback p => .nlFallback { p with nl_source := "" }

theorem pendingM_pendingM (e : McpScriptExecutor) :
    pendingM (pendingM e).2 = (((pendingM e).1).map PendingV.eraseOnce, (pendingM e).2) := by
  rcases e with ⟨wd, stack, rec⟩
  cases stack with
  | nil => simp [pendingM]
  | cons top rest =>
    cases top with
    | nl f => simp [pendingM, PendingV.eraseOnce]
    | compiled f =>
      cases hexc : f.exception with
      | some exc =>
        simp [pendingM, hexc, PendingV.eraseOnce]
      | none =>
        rcases hc : f.currentStepM with ⟨s?, f₁⟩
        have hf₁exc : f₁.exception = none := by
          have := (currentStepM_core (f := f)).2.2.2.2.2.2
          rw [hc] at this; simpa [hexc] using this
        cases s? with
        | none =>
          have hidem : f₁.currentStepM = (none, f₁) := by
            have h2 := currentStepM_idem f
            rw [hc] at h2
            simpa using h2
          simp [pendingM, hexc, hc, hf₁exc, hidem]
        | some s =>
          cases s with
          | llm l =>
            have hcur : f₁.current_step = some (.llm l) := by
              have h2 := currentStepM_some_current (f := f) (s := .llm l)
              rw [hc] at h2; exact h2 rfl
            simp [pendingM, hexc, hc, hf₁exc, hcur, currentStepM_cached, PendingV.eraseOnce]
          | auto a =>
            have hidem : f₁.currentStepM = (some (Step.auto a), f₁) := by
              have h2 := currentStepM_idem f
              rw [hc] at h2
              simpa using h2
            simp [pendingM, hexc, hc, hf₁exc, hidem]
          | callScript c =>
            have hidem : f₁.currentStepM = (some (Step.callScript c), f₁) := by
              have h2 := currentStepM_idem f
              rw [hc] at h2
              simpa using h2
            simp [pendingM, hexc, hc, hf₁exc, hidem]

theorem pendingM_idem (e : McpScriptExecutor) :
    (pendingM (pendingM e).2).2 = (pendingM e).2 := by
  rw [pendingM_pendingM]

theorem pendingM_erase (e : McpScriptExecutor) :
    (pendingM (pendingM e).2).1 = ((pendingM e).1).map PendingV.eraseOnce := by
  rw [pendingM_pendingM]

theorem pendingM_nil (wd : String) (rec : List ExecutedStep) :
    pendingM ⟨wd, [], rec⟩ = (none, ⟨wd, [], rec⟩) := rfl

theorem pendingM_top_nl (wd : String) (rec : List ExecutedStep) (f : NLScriptFrame)
    (rest : List ExecutionFrame) :
    pendingM ⟨wd, .nl f :: rest, rec⟩ =
      (some (.nlScript { name := f.script_name, content := loadNlSource (.nl f) }),
       ⟨wd, .nl f :: rest, rec⟩) := rfl

theorem pendingM_top_exc (wd : String) (rec : List ExecutedStep)
    (f : CompiledScriptFrame) (rest : List ExecutionFrame) (exc : AutoExceptionV)
    (h : f.exception = some exc) :
    pendingM ⟨wd, .compiled f :: rest, rec⟩ =
      (some (.nlFallback
        { script_name := f.script_name,
          nl_source := if f.has_shown_nl_source then "" else loadNlSource (.compiled f),
          exception := exc,
          step_index := f.step_index,
          stack_path := McpScriptExecutor.get_stack_path
            ⟨wd, .compiled { f with has_shown_nl_source := true } :: rest, rec⟩ }),
       ⟨wd, .compiled { f with has_shown_nl_source := true } :: rest, rec⟩) := by
  simp [pendingM, h]

theorem pendingM_top_llm (wd : String) (rec : List ExecutedStep)
    (f : CompiledScriptFrame) (rest : List ExecutionFrame) (l : LlmV)
    (hexc : f.exception = none) (hcur : f.current_step = some (.llm l)) :
    pendingM ⟨wd, .compiled f :: rest, rec⟩ =
      (some (.llmStep
        { step := l,
          script_name := f.script_name,
          step_index := f.step_index,
          stack_path := McpScriptExecutor.get_stack_path
            ⟨wd, .compiled { f with has_shown_nl_source := true } :: rest, rec⟩,
          context := if f.has_shown_nl_source then "" else
            "## Script Context: `" ++ f.script_name ++ "`\n\n" ++
              loadNlSource (.compiled f) ++ "\n\n---\n\n" }),
       ⟨wd, .compiled { f with has_shown_nl_source := true } :: rest, rec⟩) := by
  simp [pendingM, hexc, currentStepM_cached hcur]

theorem pendingM_top_llmM (wd : String) (rec : List ExecutedStep)
    (f f₁ : CompiledScriptFrame) (rest : List ExecutionFrame) (l : LlmV)
    (hexc : f.exception = none) (hcs : f.currentStepM = (some (.llm l), f₁)) :
    pendingM ⟨wd, .compiled f :: rest, rec⟩ =
      (some (.llmStep
        { step := l,
          script_name := f₁.script_name,
          step_index := f₁.step_index,
          stack_path := McpScriptExecutor.get_stack_path
            ⟨wd, .compiled { f₁ with has_shown_nl_source := true } :: rest, rec⟩,
          context := if f₁.has_shown_nl_source then "" else
            "## Script Context: `" ++ f₁.script_name ++ "`\n\n" ++
              loadNlSource (.compiled f₁) ++ "\n\n---\n\n" }),
       ⟨wd, .compiled { f₁ with has_shown_nl_source := true } :: rest, rec⟩) := by
  simp [pendingM, hexc, hcs]

theorem pendingM_top_auto (wd : String) (rec : List ExecutedStep)
    (f f₁ : CompiledScriptFrame) (rest : List ExecutionFrame) (a : AutoV)
    (hexc : f.exception = none) (hcs : f.currentStepM = (some (.auto a), f₁)) :
    pendingM ⟨wd, .compiled f :: rest, rec⟩ = (none, ⟨wd, .compiled f₁ :: rest, rec⟩) := by
  simp [pendingM, hexc, hcs]

theorem pendingM_top_call (wd : String) (rec : List ExecutedStep)
    (f f₁ : CompiledScriptFrame) (rest : List ExecutionFrame) (c : CallScriptV)
    (hexc : f.exception = none) (hcs : f.currentStepM = (some (.callScript c), f₁)) :
    pendingM ⟨wd, .compiled f :: rest, rec⟩ = (none, ⟨wd, .compiled f₁ :: rest, rec⟩) := by
  simp [pendingM, hexc, hcs]

theorem pendingM_top_stepNone (wd : String) (rec : List ExecutedStep)
    (f f₁ : CompiledScriptFrame) (rest : List ExecutionFrame)
    (hexc : f.exception = none) (hcs : f.currentStepM = (none, f₁)) :
    pendingM ⟨wd, .compiled f :: rest, rec⟩ = (none, ⟨wd, .compiled f₁ :: rest, rec⟩) := by
  simp [pendingM, hexc, hcs]

/-- The fields of a compiled frame that the `pending` derivation never
touches: everything except the `has_shown_nl_source` flag, the cached current
step and the generator status. -/
def compiledCoreAgrees (f f' : CompiledScriptFrame) : Prop :=
  f'.script_name = f.script_name ∧ f'.working_dir = f.working_dir ∧
  f'.nl_raw = f.nl_raw ∧ f'.arguments = f.arguments ∧
  f'.step_index = f.step_index ∧ f'.exception = f.exception

/-- How far an evaluation of the `pending` property may move the executor
state: the working directory, the execution trail and every frame but the top
are untouched, and a compiled top frame keeps all fields except its
presentation flag, cached step and generator position. -/
def pendMutationOk (e e' : McpScriptExecutor) : Prop :=
  e'.working_dir = e.working_dir ∧
  e'.recently_executed_steps = e.recently_executed_steps ∧
  (e'.stack = e.stack ∨
    ∃ f f' rest, e.stack = .compiled f :: rest ∧ e'.stack = .compiled f' :: rest ∧
      compiledCoreAgrees f f')

theorem pendingM_mutationOk (e : McpScriptExecutor) : pendMutationOk e (pendingM e).2 := by
  rcases e with ⟨wd, stack, rec⟩
  cases stack with
  | nil => simp [pendingM_nil, pendMutationOk]
  | cons top rest =>
    cases top with
    | nl f => simp [pendingM_top_nl, pendMutationOk]
    | compiled f =>
      cases hexc : f.exception with
      | some exc =>
        rw [pendingM_top_exc wd rec f rest exc hexc]
        refine ⟨rfl, rfl, .inr ⟨f, _, rest, rfl, rfl, ?_⟩⟩
        simp [compiledCoreAgrees, hexc]
      | none =>
        rcases hc : f.currentStepM with ⟨s?, f₁⟩
        have hcore := currentStepM_core (f := f)
        rw [hc] at hcore
        have hagree : compiledCoreAgrees f f₁ :=
          ⟨hcore.1, hcore.2.1, hcore.2.2.1, hcore.2.2.2.1, hcore.2.2.2.2.1,
            by rw [hcore.2.2.2.2.2.2]⟩
        cases s? with
        | none =>
          rw [pendingM_top_stepNone wd rec f f₁ rest hexc hc]
          exact ⟨rfl, rfl, .inr ⟨f, f₁, rest, rfl, rfl, hagree⟩⟩
        | some s =>
          cases s with
          | llm l =>
            rw [pendingM_top_llmM wd rec f f₁ rest l hexc hc]
            refine ⟨rfl, rfl, .inr ⟨f, _, rest, rfl, rfl, ?_⟩⟩
            simpa [compiledCoreAgrees] using hagree
          | auto a =>
            rw [pendingM_top_auto wd rec f f₁ rest a hexc hc]
            exact ⟨rfl, rfl, .inr ⟨f, f₁, rest, rfl, rfl, hagree⟩⟩
          | callScript c =>
            rw [pendingM_top_call wd rec f f₁ rest c hexc hc]
            exact ⟨rfl, rfl, .inr ⟨f, f₁, rest, rfl, rfl, hagree⟩⟩

theorem serverStatus_state (e : McpScriptExecutor) :
    (serverStatus e).2 = (pendingM e).2 := by
  rcases h : pendingM e with ⟨p₁, e₁⟩
  have hidem := pendingM_idem e
  rw [h] at hidem
  cases p₁ with
  | none =>
    simp only [serverStatus, h]
    split <;> rfl
  | some p =>
    rcases h2 : pendingM e₁ with ⟨p₂, e₂⟩
    have he : e₂ = e₁ := by rw [h2] at hidem; exact hidem
    cases p₂ <;> simp [serverStatus, h, h2, he]

/-! ### Concrete states used by the counterexamples -/

/-- An observation of the top frame's `has_shown_nl_source` flag, used to
witness state mutation. -/
def topFlag (e : McpScriptExecutor) : Option Bool :=
  match e.stack with
  | .compiled f :: _ => some f.has_shown_nl_source
  | _ => none

/-- A registry with a single compiled script `demo` whose generator yields one
`Llm` step and finishes. -/
def regC1 : Registry := fun n _ =>
  if n = "demo" then
    .ok (.compiledS "demo" "demo instructions"
      (Comp.step (.llm { prompt := "decide" }) (fun _ => Comp.done)))
  else .error ("Script not found: " ++ n)

/-- The executor state reached from the initial state by one
`push_script("demo")` (no pending derivation has happened yet). -/
def exC1 : McpScriptExecutor :=
  match pushScriptM regC1 "demo" "" "/w" (initExec "/w") with
  | .ok e => e
  | .error _ => initExec "/w"

/-- C1: the claim states that evaluating the `pending` property twice in
succession returns identical values and that the evaluation leaves the stack
and every frame's fields unchanged. Both parts fail at the reachable state
`exC1` obtained by a single push: the first evaluation returns a
`PendingLlmStep` carrying the NL-source context, the second returns it with a
blank context, and the evaluation flips the top frame's `has_shown_nl_source`
flag (and materializes its current step from the generator). -/
theorem pending_not_idempotent_counterexample :
    (pendingM (pendingM exC1).2).1 ≠ (pendingM exC1).1 ∧
    topFlag ((pendingM exC1).2) ≠ topFlag exC1 := by
  constructor
  · decide
  · decide

/-- C1 (amended): evaluating `pending` twice in succession returns the same
value up to the one-shot NL-source presentation field (the `context` of a
pending LLM step, the `nl_source` of a fallback — included at most in the
first evaluation); the first evaluation may set the top frame's
`has_shown_nl_source` flag and lazily materialize its current step from the
generator but changes nothing else (no push, pop, step-index or exception
change, and no frame below the top is touched), and after it the derivation is
a pure function of the stack: the second evaluation leaves the state exactly
unchanged. -/
theorem pending_derivation_idempotent_after_first_eval (e : McpScriptExecutor) :
    (pendingM (pendingM e).2).2 = (pendingM e).2 ∧
    (pendingM (pendingM e).2).1 = ((pendingM e).1).map PendingV.eraseOnce ∧
    pendMutationOk e (pendingM e).2 :=
  ⟨pendingM_idem e, pendingM_erase e, pendingM_mutationOk e⟩

/-- The executor state reached by one `push_script("demo")`, for the status
counterexample. -/
def exC3 : McpScriptExecutor :=
  match pushScriptM regC1 "demo" "" "/w3" (initExec "/w3") with
  | .ok e => e
  | .error _ => initExec "/w3"

/-- C3: the claim states that `status` leaves the entire executor state
unchanged — including every frame's `has_shown_nl_source` flag — for every
executor state. It fails at the state `exC3` obtained by a single push:
`status` derives the pending value, which sets the top frame's
`has_shown_nl_source` flag (and materializes its current step). -/
theorem status_mutates_counterexample :
    topFlag ((serverStatus exC3).2) ≠ topFlag exC3 := by
  decide

/-- C3 (amended): `status` returns a text description and never changes the
stack structure, any frame's step index or exception field, the execution
trail, or any frame below the top; it may only set the top frame's
`has_shown_nl_source` flag and lazily materialize the top frame's current step
(exactly the side effects of one `pending` derivation). In particular, at any
state where the `pending` derivation is already stable — as holds at every
state the public operations can leave behind — `status` leaves the state
exactly unchanged. -/
theorem status_read_only_amended (e : McpScriptExecutor) :
    pendMutationOk e (serverStatus e).2 ∧
    ((pendingM e).2 = e → (serverStatus e).2 = e) := by
  constructor
  · rw [serverStatus_state]; exact pendingM_mutationOk e
  · intro h; rw [serverStatus_state, h]

/-- Witness for the amended C3 theorem at the initial state, whose pending
derivation is stable. -/
theorem status_read_only_amended_witness :
    (serverStatus (initExec "/w")).2 = initExec "/w" :=
  (status_read_only_amended (initExec "/w")).2 rfl

/-- C9: `consume_event` is replay-mode only and strictly sequential. In record
mode it raises; with the cursor past the last event (the unread suffix empty)
it raises; with a next unread event of the wrong class it raises naming both
classes; and in the one success case it returns exactly the next unread event
and advances the cursor by exactly one, changing nothing else. -/
theorem consume_event_strictly_sequential (c : VCRCassette) (t : VcrEventClass)
    (ev : VcrEvent) (tl : List VcrEvent) :
    (c.mode = .record →
      c.consume_event (some t) = (.error "Cannot replay events while in record mode.", c)) ∧
    (c.mode = .replay → c.events.drop c.replay_event_index = [] →
      c.consume_event (some t) = (.error "VCR replay has no remaining recorded events.", c)) ∧
    (c.mode = .replay → c.events.drop c.replay_event_index = ev :: tl →
      ev.isInstanceOf t = false →
      c.consume_event (some t) = (.error ("VCR replay event mismatch. Expected " ++
        t.pyName ++ ", got " ++ ev.classOf.pyName ++ "."), c)) ∧
    (c.mode = .replay → c.events.drop c.replay_event_index = ev :: tl →
      ev.isInstanceOf t = true →
      c.consume_event (some t) =
        (.ok ev, { c with replay_event_index := c.replay_event_index + 1 })) := by
  refine ⟨fun hm => ?_, fun hm hd => ?_, fun hm hd hi => ?_, fun hm hd hi => ?_⟩
  · simp [VCRCassette.consume_event, hm]
  · simp [VCRCassette.consume_event, hm, hd]
  · simp [VCRCassette.consume_event, hm, hd, hi]
  · simp [VCRCassette.consume_event, hm, hd, hi]

/-- Witness for C9 at a concrete two-event replay cassette: consuming with the
matching class returns the first event and advances the cursor to 1. -/
theorem consume_event_strictly_sequential_witness :
    (VCRCassette.consume_event
      { mode := .replay, initial_state := [("working_dir", "/w")],
        events := [.mcpStatusInput, .mcpToolOutput "status" "ok"],
        replay_event_index := 0, last_saved_event_count := 2, file := "" }
      (some .mcpStatusInput)) =
      (.ok .mcpStatusInput,
       { mode := .replay, initial_state := [("working_dir", "/w")],
         events := [.mcpStatusInput, .mcpToolOutput "status" "ok"],
         replay_event_index := 1, last_saved_event_count := 2, file := "" }) :=
  (consume_event_strictly_sequential _ .mcpStatusInput .mcpStatusInput
    [.mcpToolOutput "status" "ok"]).2.2.2 rfl rfl rfl

/-- C10: when `consume_event` raises — on mode misuse, exhaustion or a class
mismatch — the cassette is left exactly as it was: the replay cursor is
unchanged, and a subsequent `consume_event` call behaves as if the failed call
never happened. -/
theorem consume_event_error_leaves_cursor (c : VCRCassette) (t : Option VcrEventClass)
    (msg : String) (h : (c.consume_event t).1 = .error msg) :
    (c.consume_event t).2 = c ∧
    (∀ t', ((c.consume_event t).2).consume_event t' = c.consume_event t') := by
  have hstate : (c.consume_event t).2 = c := by
    cases hm : c.mode with
    | record => simp [VCRCassette.consume_event, hm]
    | replay =>
      cases hd : c.events.drop c.replay_event_index with
      | nil => simp [VCRCassette.consume_event, hm, hd]
      | cons ev tl =>
        cases t with
        | none => simp [VCRCassette.consume_event, hm, hd] at h
        | some tc =>
          cases hi : ev.isInstanceOf tc with
          | true => simp [VCRCassette.consume_event, hm, hd, hi] at h
          | false => simp [VCRCassette.consume_event, hm, hd, hi]
  exact ⟨hstate, fun t' => by rw [hstate]⟩

/-- Witness for C10 at a concrete exhausted replay cassette. -/
theorem consume_event_error_leaves_cursor_witness :
    ((VCRCassette.consume_event
      { mode := .replay, initial_state := [("working_dir", "/w")],
        events := [.mcpStatusInput], replay_event_index := 1,
        last_saved_event_count := 1, file := "" } none)).2 =
      { mode := .replay, initial_state := [("working_dir", "/w")],
        events := [.mcpStatusInput], replay_event_index := 1,
        last_saved_event_count := 1, file := "" } :=
  (consume_event_error_leaves_cursor _ none
    "VCR replay has no remaining recorded events." (by rfl)).1

/-! ### Lemmas: incremental cassette saving -/

theorem string_join_cons (x : String) (xs : List String) :
    String.join (x :: xs) = x ++ String.join xs := by
  have hfold : ∀ (l : List String) (s : String),
      l.foldl (· ++ ·) s = s ++ l.foldl (· ++ ·) "" := by
    intro l
    induction l with
    | nil => intro s; simp
    | cons y ys ih =>
      intro s
      simp only [List.foldl_cons]
      rw [ih (s ++ y), ih ("" ++ y), String.empty_append, String.append_assoc]
  simp only [String.join, List.foldl_cons, String.empty_append]
  exact hfold xs x

theorem string_join_append (a b : List String) :
    String.join (a ++ b) = String.join a ++ String.join b := by
  induction a with
  | nil => simp [String.join]
  | cons x xs ih =>
    rw [List.cons_append, string_join_cons, string_join_cons, ih, String.append_assoc]

theorem string_join_map_append (g : VcrEvent → String) (a : List VcrEvent)
    (y : VcrEvent) :
    String.join ((a ++ [y]).map g) = String.join (a.map g) ++ g y := by
  rw [List.map_append, string_join_append]
  simp [string_join_cons, String.join]

/-- The width-unbounded emitter renders the document with one more event as
the document without it followed by the event's reindented root-level
dump. -/
theorem unboundedDumper_appendCoherent : unboundedDumper.appendCoherent := by
  intro st evs ev hne
  rcases evs with _ | ⟨x, xs⟩
  · exact absurd rfl hne
  · simp only [unboundedDumper, dumpListItemD, List.cons_append, List.map_cons,
      List.map_append]
    rw [string_join_cons, string_join_append, string_join_cons, string_join_cons]
    have hnil : String.join [] = "" := rfl
    simp [hnil, String.append_assoc]

/-- Append-coherence extended to a whole batch of events. -/
theorem appendCoherent_events (D : YamlDumper) (hD : D.appendCoherent)
    (st : List (String × String)) :
    ∀ (b evs : List VcrEvent), evs ≠ [] →
      D.dumpCassetteDoc st ((evs ++ b).map VcrEvent.toDict) =
        D.dumpCassetteDoc st (evs.map VcrEvent.toDict) ++
          String.join (b.map (dumpListItemD D)) := by
  intro b
  induction b with
  | nil =>
    intro evs h
    simp [String.join]
  | cons ev rest ih =>
    intro evs h
    have h1 : evs ++ ev :: rest = (evs ++ [ev]) ++ rest := by simp
    rw [h1, ih (evs ++ [ev]) (by simp), hD st evs ev h]
    simp only [List.map_cons]
    rw [string_join_cons, String.append_assoc]

theorem recordMany_record (c : VCRCassette) (b : List VcrEvent) (h : c.mode = .record) :
    recordMany c b = { c with events := c.events ++ b } := by
  induction b generalizing c with
  | nil => simp [recordMany]
  | cons ev evs ih =>
    have hstep : recordMany c (ev :: evs) =
        recordMany { c with events := c.events ++ [ev] } evs := by
      simp [recordMany, VCRCassette.record_event, h]
    rw [hstep, ih _ (by simp [h])]
    simp

/-- The record-mode saving invariant against the emitter `D`: the saved-count
always equals the event count right after a save, and — whenever `D` is
append-coherent — once at least one `save` has run (or any event has been
saved) the file holds exactly the single-shot document dump of the events so
far. -/
def savedInvD (D : YamlDumper) (st : List (String × String))
    (bs : List (List VcrEvent)) (c : VCRCassette) : Prop :=
  c.mode = .record ∧ c.initial_state = st ∧ c.events = bs.flatten ∧
  c.last_saved_event_count = c.events.length ∧
  (D.appendCoherent → (c.last_saved_event_count ≠ 0 ∨ bs ≠ []) →
    c.file = D.dumpCassetteDoc st (c.events.map VcrEvent.toDict))

theorem save_stepD {D : YamlDumper} {st : List (String × String)}
    {bs : List (List VcrEvent)} {c : VCRCassette}
    (hInv : savedInvD D st bs c) (b : List VcrEvent) :
    savedInvD D st (bs ++ [b]) ((recordMany c b).saveD D) := by
  obtain ⟨hm, hst, hev, hcount, hfile⟩ := hInv
  rw [recordMany_record c b hm]
  by_cases h0 : c.last_saved_event_count = 0
  · have hevnil : c.events = [] :=
      List.eq_nil_of_length_eq_zero (by rw [← hcount, h0])
    have hsave : ({ c with events := c.events ++ b } : VCRCassette).saveD D =
        { c with
            events := c.events ++ b,
            file := D.dumpCassetteDoc c.initial_state ((c.events ++ b).map VcrEvent.toDict),
            last_saved_event_count := (c.events ++ b).length } := by
      simp [VCRCassette.saveD, hm, h0]
    rw [hsave]
    refine ⟨hm, hst, ?_, rfl, fun _ _ => ?_⟩
    · show c.events ++ b = (bs ++ [b]).flatten
      rw [List.flatten_append, ← hev, hevnil]
      simp
    · show D.dumpCassetteDoc c.initial_state ((c.events ++ b).map VcrEvent.toDict) =
        D.dumpCassetteDoc st ((c.events ++ b).map VcrEvent.toDict)
      rw [hst]
  · have hne : c.events ≠ [] := by
      intro hnil
      rw [hnil] at hcount
      simp at hcount
      exact h0 hcount
    by_cases hb : b = []
    · subst hb
      have hlit : ({ c with events := c.events ++ [] } : VCRCassette) = c := by simp
      rw [hlit]
      have hdrop2 : c.events.drop c.last_saved_event_count = [] := by
        rw [hcount]; exact List.drop_length _
      have hsave : c.saveD D = c := by
        simp [VCRCassette.saveD, hm, h0, hdrop2]
      rw [hsave]
      exact ⟨hm, hst, by simpa using hev, hcount, fun hco _ => hfile hco (.inl h0)⟩
    · have hbne : b.isEmpty = false := by
        cases b with
        | nil => exact absurd rfl hb
        | cons x xs => rfl
      have hdrop : (c.events ++ b).drop c.last_saved_event_count = b := by
        rw [hcount]; exact List.drop_left _ _
      have hsave : ({ c with events := c.events ++ b } : VCRCassette).saveD D =
          { c with
              events := c.events ++ b,
              file := c.file ++ String.join (b.map (dumpListItemD D)),
              last_saved_event_count := (c.events ++ b).length } := by
        simp [VCRCassette.saveD, hm, h0, hdrop, hbne]
      rw [hsave]
      refine ⟨hm, hst, ?_, rfl, fun hco _ => ?_⟩
      · show c.events ++ b = (bs ++ [b]).flatten
        rw [List.flatten_append, ← hev]
        simp
      · show c.file ++ String.join (b.map (dumpListItemD D)) =
          D.dumpCassetteDoc st ((c.events ++ b).map VcrEvent.toDict)
        rw [hfile hco (.inl h0), appendCoherent_events D hco st b c.events hne]

theorem runBatchesD_inv (D : YamlDumper) (st : List (String × String))
    (bs : List (List VcrEvent)) :
    savedInvD D st bs (runBatchesD D st bs) := by
  induction bs using List.reverseRecOn with
  | nil =>
    refine ⟨rfl, rfl, rfl, rfl, fun _ h => ?_⟩
    rcases h with h | h
    · exact absurd rfl h
    · exact absurd rfl h
  | append_singleton bs b ih =>
    have hfold : runBatchesD D st (bs ++ [b]) =
        (recordMany (runBatchesD D st bs) b).saveD D := by
      simp [runBatchesD, List.foldl_append]
    rw [hfold]
    exact save_stepD ih b

theorem isPrefixOf_append_self (a b : List Char) : a.isPrefixOf (a ++ b) = true := by
  induction a with
  | nil => simp
  | cons x xs ih => simp [List.isPrefixOf, ih]

/-- C8 counterexample: calling `save` before any event is recorded and again
after one event was added between the saves (batches `[[], [event]]`) leaves
the saved-count at zero, so the second save takes the full-rewrite branch: the
resulting file equals the single-shot document dump, but it does not extend
the bytes the first save wrote (`events: []` is replaced), so "prior file
content is never rewritten by a later save" fails. The concrete event holds
only short special-character-free scalars, on which the width-unbounded
emitter coincides with PyYAML's configured output. -/
theorem save_rewrites_prior_content_counterexample :
    (runBatchesD unboundedDumper [("working_dir", "/w")] [[], [.mcpStatusInput]]).file =
      unboundedDumper.dumpCassetteDoc [("working_dir", "/w")]
        ([VcrEvent.mcpStatusInput].map VcrEvent.toDict) ∧
    ((runBatchesD unboundedDumper [("working_dir", "/w")] [[]]).file).data.isPrefixOf
      ((runBatchesD unboundedDumper [("working_dir", "/w")]
        [[], [.mcpStatusInput]]).file).data = false := by
  constructor
  · rfl
  · decide

/-- C8 (amended): for any batch sequence with at least one save, against any
emitter `D`: (i) whenever `D` satisfies the append-coherence law, the final
file is byte-identical to a single save of all the events — the byte-identity
the save algorithm achieves thus reduces exactly to that law of the external
`yaml.dump`, which width-unbounded emission satisfies but PyYAML's width-80
folding of long single-line scalars does not guarantee; and (ii) regardless
of the emitter, every save issued after at least one event has been saved
only appends — the previous file bytes are a prefix of the new ones. (A save
issued while the cassette still holds no saved events leaves the saved-count
at zero, and the next save rewrites the file in full — the counterexample —
the deviation from the claim's never-rewrites half.) -/
theorem incremental_save_idempotent (D : YamlDumper) (st : List (String × String))
    (bs : List (List VcrEvent)) (b : List VcrEvent) (hbs : bs ≠ []) :
    (D.appendCoherent →
      (runBatchesD D st bs).file =
        D.dumpCassetteDoc st (bs.flatten.map VcrEvent.toDict)) ∧
    (bs.flatten ≠ [] →
      ((runBatchesD D st bs).file).data.isPrefixOf
        ((runBatchesD D st (bs ++ [b])).file).data = true) := by
  obtain ⟨hm, hst, hev, hcount, hfile⟩ := runBatchesD_inv D st bs
  refine ⟨fun hco => ?_, fun hfl => ?_⟩
  · rw [← hev]
    exact hfile hco (.inr hbs)
  · have h0 : (runBatchesD D st bs).last_saved_event_count ≠ 0 := by
      rw [hcount]
      intro hlen
      exact hfl (by rw [← hev]; exact List.eq_nil_of_length_eq_zero hlen)
    have hfold : runBatchesD D st (bs ++ [b]) =
        (recordMany (runBatchesD D st bs) b).saveD D := by
      simp [runBatchesD, List.foldl_append]
    have hext : ∃ t, ((recordMany (runBatchesD D st bs) b).saveD D).file =
        (runBatchesD D st bs).file ++ t := by
      rw [recordMany_record _ b hm]
      by_cases hb : b = []
      · subst hb
        have hlit : ({ runBatchesD D st bs with
            events := (runBatchesD D st bs).events ++ [] } : VCRCassette) =
            runBatchesD D st bs := by
          simp
        rw [hlit]
        have hdrop2 : (runBatchesD D st bs).events.drop
            (runBatchesD D st bs).last_saved_event_count = [] := by
          rw [hcount]; exact List.drop_length _
        have hsave : (runBatchesD D st bs).saveD D = runBatchesD D st bs := by
          simp [VCRCassette.saveD, hm, h0, hdrop2]
        rw [hsave]
        exact ⟨"", (String.append_empty _).symm⟩
      · have hbne : b.isEmpty = false := by
          cases b with
          | nil => exact absurd rfl hb
          | cons x xs => rfl
        have hdrop : ((runBatchesD D st bs).events ++ b).drop
            (runBatchesD D st bs).last_saved_event_count = b := by
          rw [hcount]; exact List.drop_left _ _
        have hsave : ({ runBatchesD D st bs with
            events := (runBatchesD D st bs).events ++ b } : VCRCassette).saveD D =
            { runBatchesD D st bs with
                events := (runBatchesD D st bs).events ++ b,
                file := (runBatchesD D st bs).file ++
                  String.join (b.map (dumpListItemD D)),
                last_saved_event_count :=
                  ((runBatchesD D st bs).events ++ b).length } := by
          simp [VCRCassette.saveD, hm, h0, hdrop, hbne]
        rw [hsave]
        exact ⟨String.join (b.map (dumpListItemD D)), rfl⟩
    obtain ⟨t, ht⟩ := hext
    rw [hfold, ht, String.data_append]
    exact isPrefixOf_append_self _ _

/-- Witness for the amended C8 theorem at the append-coherent width-unbounded
emitter: one event saved, then a second batch appended — the final file is
the single-shot document dump and extends the first file. -/
theorem incremental_save_idempotent_witness :
    (runBatchesD unboundedDumper [("working_dir", "/w")] [[.mcpStatusInput]]).file =
      unboundedDumper.dumpCassetteDoc [("working_dir", "/w")]
        ([VcrEvent.mcpStatusInput].map VcrEvent.toDict) ∧
    ((runBatchesD unboundedDumper [("working_dir", "/w")]
        [[.mcpStatusInput]]).file).data.isPrefixOf
      ((runBatchesD unboundedDumper [("working_dir", "/w")]
        ([[.mcpStatusInput]] ++ [[.mcpToolOutput "status" "ok"]])).file).data = true := by
  have h := incremental_save_idempotent unboundedDumper [("working_dir", "/w")]
    [[.mcpStatusInput]] [.mcpToolOutput "status" "ok"] (by simp)
  exact ⟨h.1 unboundedDumper_appendCoherent, h.2 (by simp)⟩

/-! ### The run-loop step theorems (C5, C6, C7) -/

/-- The failure `ScriptCallResult` the run loop synthesizes when a nested
script fails to resolve. -/
def loadFailureResult (msg : String) : ScriptCallResultV :=
  { success := false, summary := msg, aborted := true, steps_executed := 0,
    exception := none }

/-- The success `ScriptCallResult` `_pop_frame` synthesizes when a completed
frame's parent awaits a `CallScript`. -/
def popSuccessResult (name : String) (steps : Nat) : ScriptCallResultV :=
  { success := true,
    summary := "Completed " ++ name ++ " in " ++ toString steps ++ " steps",
    aborted := false, steps_executed := steps, exception := none }

/-- The entry trail marker recorded when a `CallScript` step is reached. -/
def callEntryStep (f : CompiledScriptFrame) (c : CallScriptV) : ExecutedStep :=
  { script_name := f.script_name, step_index := f.step_index,
    step := .callScript c, is_entry := true }

/-- The exit trail marker recorded when a `CallScript` step yields a result. -/
def callExitStep (sn : String) (idx : Nat) (c : CallScriptV)
    (r : ScriptCallResultV) : ExecutedStep :=
  { script_name := sn, step_index := idx, step := .callScript c,
    result := some (.script r), is_exit := true }

/-- C6: when the top compiled frame's current step is a `CallScript` whose
name fails to resolve, the loop records entry and exit trail markers,
synthesizes a failure `ScriptCallResult` (`success := false`,
`steps_executed := 0`, `aborted := true`, carrying the load error as summary,
no exception), advances the current frame with it, and continues the loop —
no pending state is returned and the frame's exception field stays `none`, so
the failure is never escalated to the caller. -/
theorem nested_resolution_failure_recovered (reg : Registry) (ax : AutoExec)
    (wd : String) (rec : List ExecutedStep) (f : CompiledScriptFrame)
    (rest : List ExecutionFrame) (c : CallScriptV) (msg : String)
    (hexc : f.exception = none) (hcur : f.current_step = some (.callScript c))
    (hload : load_script reg c.name c.request = .error msg) :
    runStep reg ax ⟨wd, .compiled f :: rest, rec⟩ =
      .cont ⟨wd, .compiled (f.advance (.script (loadFailureResult msg))) :: rest,
        rec ++ [callEntryStep f c,
                callExitStep f.script_name f.step_index c (loadFailureResult msg)]⟩ ∧
    (f.advance (.script (loadFailureResult msg))).exception = none := by
  constructor
  · simp [runStep, hexc, currentStepM_cached hcur, hload, loadFailureResult,
      callEntryStep, callExitStep]
  · rcases hs : genSend f.gen (.script (loadFailureResult msg)) with ⟨s?, g⟩
    cases s? <;> simp [CompiledScriptFrame.advance, hs, hexc]

/-- A registry that resolves nothing, for the C6 witness. -/
def regEmpty : Registry := fun n _ => .error ("Script not found: " ++ n)

/-- An auto executor that always succeeds, used where the auto boundary is
irrelevant. -/
def axTrivial : AutoExec := fun _ _ => .result (.shellResult true 0 "")

/-- A compiled frame suspended at a `call_script missing` step, for the C6
witness. -/
def frameC6 : CompiledScriptFrame :=
  { script_name := "caller", working_dir := "/w", nl_raw := "caller source",
    arguments := "", gen := .suspended (fun _ => .done), step_index := 1,
    current_step := some (.callScript { name := "missing", request := "" }) }

/-- Witness for C6: at a concrete frame calling an unresolvable script, the
loop continues (no suspension) with the frame advanced. -/
theorem nested_resolution_failure_recovered_witness :
    ∃ e', runStep regEmpty axTrivial ⟨"/w", .compiled frameC6 :: [], []⟩ = .cont e' := by
  have h := nested_resolution_failure_recovered regEmpty axTrivial "/w" [] frameC6 []
    { name := "missing", request := "" } "Script not found: missing" rfl rfl rfl
  exact ⟨_, h.1⟩

/-- C7: when the top compiled frame's computation is exhausted (its current
step derives to `None`), the loop pops it; if the new top is a compiled frame
whose current step is a `CallScript`, it synthesizes a success
`ScriptCallResult` whose `steps_executed` equals the popped frame's step
index, records the exit trail marker, advances the parent with it, and
continues the loop. -/
theorem exhausted_frame_pop_advances_parent (reg : Registry) (ax : AutoExec)
    (wd : String) (rec : List ExecutedStep) (f f₁ pf : CompiledScriptFrame)
    (rest2 : List ExecutionFrame) (cs : CallScriptV)
    (hexc : f.exception = none) (hcs : f.currentStepM = (none, f₁))
    (hpcur : pf.current_step = some (.callScript cs)) :
    runStep reg ax ⟨wd, .compiled f :: .compiled pf :: rest2, rec⟩ =
      .cont ⟨wd,
        .compiled (pf.advance (.script (popSuccessResult f.script_name f.step_index))) :: rest2,
        rec ++ [callExitStep pf.script_name pf.step_index cs
          (popSuccessResult f.script_name f.step_index)]⟩ := by
  have hcore := currentStepM_core (f := f)
  rw [hcs] at hcore
  simp only [Prod.snd] at hcore
  obtain ⟨h1, _, _, _, h5, _, _⟩ := hcore
  simp [runStep, hexc, hcs, popFrameM, currentStepM_cached hpcur, popSuccessResult,
    callExitStep, h1, h5]

/-- An exhausted compiled frame (generator finished, no cached step), for the
C7 witness. -/
def frameExhausted : CompiledScriptFrame :=
  { script_name := "inner", working_dir := "/w", nl_raw := "inner source",
    arguments := "", gen := .exhausted, step_index := 3, current_step := none }

/-- A parent compiled frame suspended at the `CallScript` that invoked the
child, for the C7 witness. -/
def frameParent : CompiledScriptFrame :=
  { script_name := "outer", working_dir := "/w", nl_raw := "outer source",
    arguments := "", gen := .suspended (fun _ => .done), step_index := 1,
    current_step := some (.callScript { name := "inner", request := "" }) }

/-- Witness for C7 at a concrete exhausted child over a waiting parent. -/
theorem exhausted_frame_pop_advances_parent_witness :
    runStep regEmpty axTrivial
        ⟨"/w", .compiled frameExhausted :: .compiled frameParent :: [], []⟩ =
      .cont ⟨"/w",
        .compiled (frameParent.advance (.script (popSuccessResult "inner" 3))) :: [],
        [callExitStep "outer" 1 { name := "inner", request := "" }
          (popSuccessResult "inner" 3)]⟩ := by
  have h := exhausted_frame_pop_advances_parent regEmpty axTrivial "/w" []
    frameExhausted frameExhausted frameParent [] { name := "inner", request := "" }
    rfl rfl rfl
  simpa using h

/-- The frame state after a soft auto failure: the synthesized error-handling
`Llm` step is installed as the current step (the step index, generator
position and exception field are untouched; the `pending` reads performed by
the method's assertions set the presentation flag). -/
def softFailureFrame (f : CompiledScriptFrame) (a : AutoV) (r : AutoResultV) :
    CompiledScriptFrame :=
  { f with current_step := some (.llm (errorStepFor a r)),
           has_shown_nl_source := true }

/-- The trail entry recorded for an executed auto step. -/
def autoExecutedStep (f : CompiledScriptFrame) (a : AutoV) (r : AutoResultV) :
    ExecutedStep :=
  { script_name := f.script_name, step_index := f.step_index, step := .auto a,
    result := some (.auto r) }

theorem runStep_soft_failureM (reg : Registry) (ax : AutoExec) (wd : String)
    (rec : List ExecutedStep) (cf cf₁ : CompiledScriptFrame)
    (srest : List ExecutionFrame) (a : AutoV) (r : AutoResultV)
    (hcfe : cf.exception = none) (hcs : cf.currentStepM = (some (.auto a), cf₁))
    (hax : ax a cf₁.working_dir = .result r)
    (hne : ∀ exc, r ≠ .autoException exc) (hfail : r.success = false) :
    runStep reg ax ⟨wd, .compiled cf :: srest, rec⟩ =
      .stop
        { executed_steps := rec ++ [autoExecutedStep cf₁ a r],
          output_text := "",
          pending := some (.llmStep
            { step := errorStepFor a r, script_name := cf₁.script_name,
              step_index := cf₁.step_index,
              stack_path := McpScriptExecutor.get_stack_path
                ⟨wd, .compiled (softFailureFrame cf₁ a r) :: srest, rec⟩,
              context := "" }) }
        ⟨wd, .compiled (softFailureFrame cf₁ a r) :: srest, []⟩ := by
  have hcore := currentStepM_core (f := cf)
  rw [hcs] at hcore
  simp only [Prod.snd] at hcore
  have hexc₁ : cf₁.exception = none := by rw [hcore.2.2.2.2.2.2, hcfe]
  rcases r with ⟨s, code, out⟩ | ⟨s, v, err, out⟩ | rexc
  · simp only [AutoResultV.success] at hfail
    subst hfail
    simp [runStep, hcfe, hcs, hax, AutoResultV.success, pendEval, buildResultM,
      softFailureFrame, autoExecutedStep, pendingM, hexc₁, currentStepM_cached,
      McpScriptExecutor.get_stack_path]
  · simp only [AutoResultV.success] at hfail
    subst hfail
    simp [runStep, hcfe, hcs, hax, AutoResultV.success, pendEval, buildResultM,
      softFailureFrame, autoExecutedStep, pendingM, hexc₁, currentStepM_cached,
      McpScriptExecutor.get_stack_path]
  · exact absurd rfl (hne rexc)

/-- The executor state carried by either outcome of a loop iteration. -/
def LoopOut.stateOf : LoopOut → McpScriptExecutor
  | .cont e => e
  | .stop _ e => e

theorem runStep_auto_raised_state (reg : Registry) (ax : AutoExec) (wd : String)
    (rec : List ExecutedStep) (cf cf₁ : CompiledScriptFrame)
    (srest : List ExecutionFrame) (a : AutoV) (oe out : String)
    (ae : AutoExceptionV)
    (hae : ae = { exception := oe, step_description := a.description, output := out })
    (hcfe : cf.exception = none) (hcs : cf.currentStepM = (some (.auto a), cf₁))
    (hax : ax a cf₁.working_dir = .raised oe out) :
    (runStep reg ax ⟨wd, .compiled cf :: srest, rec⟩).stateOf =
      ⟨wd, .compiled
        { cf₁ with
            has_shown_nl_source := true,
            exception := some ae } :: srest, []⟩ := by
  subst hae
  simp [runStep, hcfe, hcs, hax, buildResultM, pendingM, pendEval, LoopOut.stateOf]

theorem runStep_auto_excResult_state (reg : Registry) (ax : AutoExec) (wd : String)
    (rec : List ExecutedStep) (cf cf₁ : CompiledScriptFrame)
    (srest : List ExecutionFrame) (a : AutoV) (rexc : AutoExceptionV)
    (hcfe : cf.exception = none) (hcs : cf.currentStepM = (some (.auto a), cf₁))
    (hax : ax a cf₁.working_dir = .result (.autoException rexc)) :
    (runStep reg ax ⟨wd, .compiled cf :: srest, rec⟩).stateOf =
      ⟨wd, .compiled
        { cf₁ with
            has_shown_nl_source := true,
            exception := some rexc } :: srest, []⟩ := by
  simp [runStep, hcfe, hcs, hax, buildResultM, pendingM, pendEval, LoopOut.stateOf]

/-- C5: when an `Auto` step produces a result with `success = false` that is
not an exception, the loop records the step, synthesizes the one-off
error-handling `Llm` step, installs it as the frame's current step — without
advancing the generator or incrementing the step index — and suspends with
that step pending; and when the driver later answers via
`continue_after_llm`, the original generator is resumed by sending the
`LlmResult` into the suspension, continuing normal execution of the original
sequence. -/
theorem soft_auto_failure_synthesizes_judgment (reg : Registry) (ax : AutoExec)
    (wd : String) (rec : List ExecutedStep) (f : CompiledScriptFrame)
    (rest : List ExecutionFrame) (a : AutoV) (r : AutoResultV)
    (hexc : f.exception = none) (hcur : f.current_step = some (.auto a))
    (hax : ax a f.working_dir = .result r)
    (hne : ∀ exc, r ≠ .autoException exc) (hfail : r.success = false) :
    runStep reg ax ⟨wd, .compiled f :: rest, rec⟩ =
      .stop
        { executed_steps := rec ++ [autoExecutedStep f a r],
          output_text := "",
          pending := some (.llmStep
            { step := errorStepFor a r, script_name := f.script_name,
              step_index := f.step_index,
              stack_path := McpScriptExecutor.get_stack_path
                ⟨wd, .compiled (softFailureFrame f a r) :: rest, rec⟩,
              context := "" }) }
        ⟨wd, .compiled (softFailureFrame f a r) :: rest, []⟩ ∧
    (∀ outputs, ∃ has_more e'',
      continueAfterLlm ⟨wd, .compiled (softFailureFrame f a r) :: rest, []⟩ outputs =
        (.ok has_more, e'') ∧
      e''.stack =
        .compiled ((softFailureFrame f a r).advance (.llm true outputs)) :: rest) := by
  have hexcF : (softFailureFrame f a r).exception = none := hexc
  have hstep := runStep_soft_failureM reg ax wd rec f f rest a r hexc
    (currentStepM_cached hcur) hax hne hfail
  refine ⟨hstep, fun outputs => ?_⟩
  have hp := pendingM_top_llm wd [] (softFailureFrame f a r) rest (errorStepFor a r)
    hexcF rfl
  have hFF : ({ softFailureFrame f a r with has_shown_nl_source := true }
      : CompiledScriptFrame) = softFailureFrame f a r := rfl
  rw [hFF] at hp
  have hadv := currentStepM_advance (softFailureFrame f a r) (.llm true outputs)
  rcases hc2 : ((softFailureFrame f a r).advance (.llm true outputs)).current_step with
    _ | s2
  · refine ⟨decide ((rest.length + 1 : Nat) > 1),
      ⟨wd, .compiled ((softFailureFrame f a r).advance (.llm true outputs)) :: rest, []⟩,
      ?_, rfl⟩
    simp [continueAfterLlm, hp, hadv, hc2]
  · refine ⟨true,
      ⟨wd, .compiled ((softFailureFrame f a r).advance (.llm true outputs)) :: rest, []⟩,
      ?_, rfl⟩
    simp [continueAfterLlm, hp, hadv, hc2]

/-! ### Equations for single run-loop iterations, by top-frame shape -/

theorem runStep_top_nl (reg : Registry) (ax : AutoExec) (wd : String)
    (rec : List ExecutedStep) (pf : NLScriptFrame) (srest : List ExecutionFrame) :
    runStep reg ax ⟨wd, .nl pf :: srest, rec⟩ =
      .stop
        { executed_steps := rec,
          output_text := "",
          pending := some (.nlScript
            { name := pf.script_name,
              content := loadNlSource (.nl pf) }) }
        ⟨wd, .nl pf :: srest, []⟩ := by
  simp [runStep, pendingM_top_nl, buildResultM]

theorem runStep_top_exc (reg : Registry) (ax : AutoExec) (wd : String)
    (rec : List ExecutedStep) (cf : CompiledScriptFrame) (srest : List ExecutionFrame)
    (exc : AutoExceptionV) (hcfe : cf.exception = some exc) :
    runStep reg ax ⟨wd, .compiled cf :: srest, rec⟩ =
      .stop
        { executed_steps := rec,
          output_text := "",
          pending := some (.nlFallback
            { script_name := cf.script_name,
              nl_source := if cf.has_shown_nl_source then ""
                else loadNlSource (.compiled cf),
              exception := exc,
              step_index := cf.step_index,
              stack_path := McpScriptExecutor.get_stack_path
                ⟨wd, .compiled { cf with has_shown_nl_source := true } :: srest, rec⟩ }) }
        ⟨wd, .compiled { cf with has_shown_nl_source := true } :: srest, []⟩ := by
  have hs : cf.exception.isSome = true := by rw [hcfe]; rfl
  simp [runStep, hs, pendingM_top_exc wd rec cf srest exc hcfe, buildResultM]

theorem runStep_top_llmM (reg : Registry) (ax : AutoExec) (wd : String)
    (rec : List ExecutedStep) (cf cf₁ : CompiledScriptFrame)
    (srest : List ExecutionFrame) (l : LlmV) (hcfe : cf.exception = none)
    (hcs : cf.currentStepM = (some (.llm l), cf₁)) :
    runStep reg ax ⟨wd, .compiled cf :: srest, rec⟩ =
      .stop
        { executed_steps := rec,
          output_text := "",
          pending := some (.llmStep
            { step := l,
              script_name := cf₁.script_name,
              step_index := cf₁.step_index,
              stack_path := McpScriptExecutor.get_stack_path
                ⟨wd, .compiled { cf₁ with has_shown_nl_source := true } :: srest, rec⟩,
              context := "" }) }
        ⟨wd, .compiled { cf₁ with has_shown_nl_source := true } :: srest, []⟩ := by
  have hcore := currentStepM_core (f := cf)
  rw [hcs] at hcore
  simp only [Prod.snd] at hcore
  have hexc₁ : cf₁.exception = none := by rw [hcore.2.2.2.2.2.2, hcfe]
  have hcur₁ : cf₁.current_step = some (.llm l) := by
    have h2 := currentStepM_some_current (f := cf) (s := .llm l)
    rw [hcs] at h2
    exact h2 rfl
  simp [runStep, hcfe, hcs, pendEval, hexc₁, hcur₁, currentStepM_cached,
    pendingM, buildResultM]

/-! ### Preservation of a pending-judgment frame under the run loop -/

/-- How the run loop may affect a protected frame it never drives: either
untouched, or with only its presentation flag set (by a `pending`
derivation). -/
def llmFramePreserved (f f' : CompiledScriptFrame) : Prop :=
  f' = f ∨ f' = { f with has_shown_nl_source := true }

theorem llmFramePreserved_trans {f f' f'' : CompiledScriptFrame}
    (h1 : llmFramePreserved f f') (h2 : llmFramePreserved f' f'') :
    llmFramePreserved f f'' := by
  rcases h1 with h1 | h1 <;> rcases h2 with h2 | h2 <;> subst h1 <;> subst h2 <;>
    simp [llmFramePreserved]

/-- The protected frame (with the given tail below it) is still on the stack,
at most flag-mutated, with the frames below it untouched. -/
def tailPreserved (wd : String) (f : CompiledScriptFrame)
    (rest : List ExecutionFrame) (e' : McpScriptExecutor) : Prop :=
  ∃ pre' f' rec', e' = ⟨wd, pre' ++ .compiled f' :: rest, rec'⟩ ∧
    llmFramePreserved f f'

/-- `tailPreserved` for either outcome of a loop iteration. -/
def loopOutPreserved (wd : String) (f : CompiledScriptFrame)
    (rest : List ExecutionFrame) (out : LoopOut) : Prop :=
  tailPreserved wd f rest out.stateOf

theorem runStep_tail (reg : Registry) (ax : AutoExec) (wd : String)
    (rec : List ExecutedStep) (pre : List ExecutionFrame)
    (f : CompiledScriptFrame) (rest : List ExecutionFrame) (l : LlmV)
    (hexc : f.exception = none) (hcur : f.current_step = some (.llm l)) :
    loopOutPreserved wd f rest
      (runStep reg ax ⟨wd, pre ++ .compiled f :: rest, rec⟩) := by
  cases pre with
  | nil =>
    rw [List.nil_append,
      runStep_top_llmM reg ax wd rec f f rest l hexc (currentStepM_cached hcur)]
    exact ⟨[], { f with has_shown_nl_source := true }, [], rfl, .inr rfl⟩
  | cons p pre1 =>
    cases p with
    | nl pf =>
      rw [List.cons_append, runStep_top_nl reg ax wd rec pf (pre1 ++ .compiled f :: rest)]
      exact ⟨.nl pf :: pre1, f, [], rfl, .inl rfl⟩
    | compiled cf =>
      rw [List.cons_append]
      cases hcfe : cf.exception with
      | some exc =>
        rw [runStep_top_exc reg ax wd rec cf (pre1 ++ .compiled f :: rest) exc hcfe]
        exact ⟨.compiled { cf with has_shown_nl_source := true } :: pre1, f, [], rfl,
          .inl rfl⟩
      | none =>
        rcases hcs : cf.currentStepM with ⟨s?, cf₁⟩
        cases s? with
        | none =>
          have hrw : runStep reg ax ⟨wd, .compiled cf :: (pre1 ++ .compiled f :: rest), rec⟩ =
              .cont (popFrameM ⟨wd, .compiled cf₁ :: (pre1 ++ .compiled f :: rest), rec⟩) := by
            simp [runStep, hcfe, hcs]
          rw [hrw]
          cases pre1 with
          | nil =>
            have hpop : popFrameM ⟨wd, .compiled cf₁ :: ([] ++ .compiled f :: rest), rec⟩ =
                ⟨wd, .compiled f :: rest, rec⟩ := by
              simp [popFrameM, currentStepM_cached hcur]
            rw [hpop]
            exact ⟨[], f, rec, rfl, .inl rfl⟩
          | cons q pre2 =>
            cases q with
            | nl qf =>
              have hpop : popFrameM
                  ⟨wd, .compiled cf₁ :: (.nl qf :: pre2 ++ .compiled f :: rest), rec⟩ =
                  ⟨wd, .nl qf :: pre2 ++ .compiled f :: rest, rec⟩ := by
                simp [popFrameM]
              rw [hpop]
              exact ⟨.nl qf :: pre2, f, rec, rfl, .inl rfl⟩
            | compiled qf =>
              rcases hqcs : qf.currentStepM with ⟨qs?, qf₁⟩
              cases qs? with
              | none =>
                have hpop : popFrameM
                    ⟨wd, .compiled cf₁ :: (.compiled qf :: pre2 ++ .compiled f :: rest), rec⟩ =
                    ⟨wd, .compiled qf₁ :: pre2 ++ .compiled f :: rest, rec⟩ := by
                  simp [popFrameM, hqcs]
                rw [hpop]
                exact ⟨.compiled qf₁ :: pre2, f, rec, rfl, .inl rfl⟩
              | some qs =>
                cases qs with
                | callScript c =>
                  have hpop : popFrameM
                      ⟨wd, .compiled cf₁ :: (.compiled qf :: pre2 ++ .compiled f :: rest), rec⟩ =
                      ⟨wd, .compiled (qf₁.advance
                          (.script (popSuccessResult cf₁.script_name cf₁.step_index)))
                        :: pre2 ++ .compiled f :: rest,
                        rec ++ [callExitStep qf₁.script_name qf₁.step_index c
                          (popSuccessResult cf₁.script_name cf₁.step_index)]⟩ := by
                    simp [popFrameM, hqcs, popSuccessResult, callExitStep]
                  rw [hpop]
                  exact ⟨.compiled (qf₁.advance _) :: pre2, f, _, rfl, .inl rfl⟩
                | auto a =>
                  have hpop : popFrameM
                      ⟨wd, .compiled cf₁ :: (.compiled qf :: pre2 ++ .compiled f :: rest), rec⟩ =
                      ⟨wd, .compiled qf₁ :: pre2 ++ .compiled f :: rest, rec⟩ := by
                    simp [popFrameM, hqcs]
                  rw [hpop]
                  exact ⟨.compiled qf₁ :: pre2, f, rec, rfl, .inl rfl⟩
                | llm l2 =>
                  have hpop : popFrameM
                      ⟨wd, .compiled cf₁ :: (.compiled qf :: pre2 ++ .compiled f :: rest), rec⟩ =
                      ⟨wd, .compiled qf₁ :: pre2 ++ .compiled f :: rest, rec⟩ := by
                    simp [popFrameM, hqcs]
                  rw [hpop]
                  exact ⟨.compiled qf₁ :: pre2, f, rec, rfl, .inl rfl⟩
        | some s =>
          cases s with
          | llm l2 =>
            rw [runStep_top_llmM reg ax wd rec cf cf₁ (pre1 ++ .compiled f :: rest) l2
              hcfe hcs]
            exact ⟨.compiled { cf₁ with has_shown_nl_source := true } :: pre1, f, [],
              rfl, .inl rfl⟩
          | callScript c =>
            cases hload : load_script reg c.name c.request with
            | error msg =>
              have hrw : runStep reg ax
                  ⟨wd, .compiled cf :: (pre1 ++ .compiled f :: rest), rec⟩ =
                  .cont ⟨wd, .compiled (cf₁.advance (.script (loadFailureResult msg)))
                      :: (pre1 ++ .compiled f :: rest),
                    rec ++ [callEntryStep cf₁ c,
                      callExitStep cf₁.script_name cf₁.step_index c
                        (loadFailureResult msg)]⟩ := by
                simp [runStep, hcfe, hcs, hload, loadFailureResult, callEntryStep,
                  callExitStep]
              rw [hrw]
              exact ⟨.compiled (cf₁.advance _) :: pre1, f, _, rfl, .inl rfl⟩
            | ok ls =>
              cases ls with
              | nlS tname nlraw =>
                have hrw : runStep reg ax
                    ⟨wd, .compiled cf :: (pre1 ++ .compiled f :: rest), rec⟩ =
                    .stop
                      { executed_steps := rec ++ [callEntryStep cf₁ c],
                        output_text := "",
                        pending := some (.nlScript
                          { name := tname,
                            content := loadNlSource (.nl
                              { script_name := tname,
                                working_dir := c.working_dir.getD cf₁.working_dir,
                                nl_raw := nlraw, arguments := c.request }) }) }
                      ⟨wd, .nl
                          { script_name := tname,
                            working_dir := c.working_dir.getD cf₁.working_dir,
                            nl_raw := nlraw, arguments := c.request }
                        :: .compiled cf₁ :: (pre1 ++ .compiled f :: rest), []⟩ := by
                  simp [runStep, hcfe, hcs, hload, pendEval, pendingM_top_nl,
                    buildResultM, callEntryStep]
                rw [hrw]
                exact ⟨.nl _ :: .compiled cf₁ :: pre1, f, [], rfl, .inl rfl⟩
              | compiledS tname nlraw comp =>
                have hrw : runStep reg ax
                    ⟨wd, .compiled cf :: (pre1 ++ .compiled f :: rest), rec⟩ =
                    .cont ⟨wd, .compiled
                        { script_name := tname,
                          working_dir := c.working_dir.getD cf₁.working_dir,
                          nl_raw := nlraw, arguments := c.request,
                          gen := .unstarted comp }
                      :: .compiled cf₁ :: (pre1 ++ .compiled f :: rest),
                      rec ++ [callEntryStep cf₁ c]⟩ := by
                  simp [runStep, hcfe, hcs, hload, callEntryStep]
                rw [hrw]
                exact ⟨.compiled _ :: .compiled cf₁ :: pre1, f, _, rfl, .inl rfl⟩
          | auto a =>
            cases hax : ax a cf₁.working_dir with
            | raised oe out =>
              have hrw := runStep_auto_raised_state reg ax wd rec cf cf₁
                (pre1 ++ .compiled f :: rest) a oe out _ rfl hcfe hcs hax
              show tailPreserved wd f rest _
              rw [hrw]
              exact ⟨.compiled _ :: pre1, f, [], rfl, .inl rfl⟩
            | result r =>
              rcases r with ⟨s, code, out⟩ | ⟨s, v, err, out⟩ | rexc
              · cases s with
                | false =>
                  rw [runStep_soft_failureM reg ax wd rec cf cf₁
                    (pre1 ++ .compiled f :: rest) a (.shellResult false code out)
                    hcfe hcs hax (fun hx h2 => AutoResultV.noConfusion h2) rfl]
                  exact ⟨.compiled (softFailureFrame cf₁ a _) :: pre1, f, [], rfl,
                    .inl rfl⟩
                | true =>
                  have hrw : runStep reg ax
                      ⟨wd, .compiled cf :: (pre1 ++ .compiled f :: rest), rec⟩ =
                      .cont ⟨wd, .compiled (cf₁.advance (.auto (.shellResult true code out)))
                          :: (pre1 ++ .compiled f :: rest),
                        rec ++ [autoExecutedStep cf₁ a (.shellResult true code out)]⟩ := by
                    simp [runStep, hcfe, hcs, hax, AutoResultV.success, autoExecutedStep]
                  rw [hrw]
                  exact ⟨.compiled (cf₁.advance _) :: pre1, f, _, rfl, .inl rfl⟩
              · cases s with
                | false =>
                  rw [runStep_soft_failureM reg ax wd rec cf cf₁
                    (pre1 ++ .compiled f :: rest) a (.callResult false v err out)
                    hcfe hcs hax (fun hx h2 => AutoResultV.noConfusion h2) rfl]
                  exact ⟨.compiled (softFailureFrame cf₁ a _) :: pre1, f, [], rfl,
                    .inl rfl⟩
                | true =>
                  have hrw : runStep reg ax
                      ⟨wd, .compiled cf :: (pre1 ++ .compiled f :: rest), rec⟩ =
                      .cont ⟨wd, .compiled (cf₁.advance (.auto (.callResult true v err out)))
                          :: (pre1 ++ .compiled f :: rest),
                        rec ++ [autoExecutedStep cf₁ a (.callResult true v err out)]⟩ := by
                    simp [runStep, hcfe, hcs, hax, AutoResultV.success, autoExecutedStep]
                  rw [hrw]
                  exact ⟨.compiled (cf₁.advance _) :: pre1, f, _, rfl, .inl rfl⟩
              · have hrw := runStep_auto_excResult_state reg ax wd rec cf cf₁
                  (pre1 ++ .compiled f :: rest) a rexc hcfe hcs hax
                show tailPreserved wd f rest _
                rw [hrw]
                exact ⟨.compiled _ :: pre1, f, [], rfl, .inl rfl⟩

theorem llmFramePreserved_fields {f f' : CompiledScriptFrame}
    (h : llmFramePreserved f f') :
    f'.exception = f.exception ∧ f'.current_step = f.current_step := by
  rcases h with h | h <;> subst h <;> simp

theorem runUntilLlm_tail (reg : Registry) (ax : AutoExec) (l : LlmV) :
    ∀ (fuel : Nat) (wd : String) (rec : List ExecutedStep)
      (pre : List ExecutionFrame) (f : CompiledScriptFrame)
      (rest : List ExecutionFrame), f.exception = none →
      f.current_step = some (.llm l) →
      ∀ (r : RunResult) (e' : McpScriptExecutor),
      runUntilLlm reg ax fuel ⟨wd, pre ++ .compiled f :: rest, rec⟩ = some (r, e') →
      tailPreserved wd f rest e' := by
  intro fuel
  induction fuel with
  | zero =>
    intro wd rec pre f rest hexc hcur r e' h
    simp [runUntilLlm] at h
  | succ n ih =>
    intro wd rec pre f rest hexc hcur r e' h
    have hpres := runStep_tail reg ax wd rec pre f rest l hexc hcur
    rcases hout : runStep reg ax ⟨wd, pre ++ .compiled f :: rest, rec⟩ with e0 | ⟨r0, e0⟩
    · rw [hout] at hpres
      simp only [loopOutPreserved, LoopOut.stateOf, tailPreserved] at hpres
      simp only [runUntilLlm, hout] at h
      obtain ⟨pre', f', rec', he0, hf'⟩ := hpres
      subst he0
      have hfields := llmFramePreserved_fields hf'
      obtain ⟨pre'', f'', rec'', he', hf''⟩ := ih wd rec' pre' f' rest
        (by rw [hfields.1, hexc]) (by rw [hfields.2, hcur]) r e' h
      exact ⟨pre'', f'', rec'', he', llmFramePreserved_trans hf' hf''⟩
    · rw [hout] at hpres
      simp only [loopOutPreserved, LoopOut.stateOf, tailPreserved] at hpres
      simp only [runUntilLlm, hout, Option.some.injEq, Prod.mk.injEq] at h
      rw [← h.2]
      exact hpres

theorem pushScriptM_stack (reg : Registry) (n a w : String)
    (e e₁ : McpScriptExecutor) (h : pushScriptM reg n a w e = .ok e₁) :
    ∃ fr, e₁ = { e with stack := fr :: e.stack } := by
  rcases hl : load_script reg n a with msg | ls
  · simp [pushScriptM, hl] at h
  · cases ls with
    | nlS tname nlraw =>
      simp only [pushScriptM, hl, Except.ok.injEq] at h
      exact ⟨_, h.symm⟩
    | compiledS tname nlraw comp =>
      simp only [pushScriptM, hl, Except.ok.injEq] at h
      exact ⟨_, h.symm⟩

theorem serverStart_tail (reg : Registry) (ax : AutoExec) (fuel : Nat)
    (name arguments : String) (wdo : Option String) (wd : String)
    (rec : List ExecutedStep) (f : CompiledScriptFrame)
    (rest : List ExecutionFrame) (l : LlmV)
    (hexc : f.exception = none) (hcur : f.current_step = some (.llm l))
    (txt : String) (e' : McpScriptExecutor)
    (h : serverStart reg ax fuel name arguments wdo ⟨wd, .compiled f :: rest, rec⟩ =
      some (txt, e')) :
    ∃ pre' f', e'.stack = pre' ++ .compiled f' :: rest ∧ llmFramePreserved f f' := by
  simp only [serverStart] at h
  split at h
  · rename_i msg hpush
    simp only [Option.some.injEq, Prod.mk.injEq] at h
    rw [← h.2]
    exact ⟨[], f, rfl, .inl rfl⟩
  · rename_i e₁ hpush
    obtain ⟨fr, he₁⟩ := pushScriptM_stack _ _ _ _ _ _ hpush
    split at h
    · exact absurd h (by simp)
    · rename_i r e₂ hrun
      simp only [Option.some.injEq, Prod.mk.injEq] at h
      subst he₁
      have hres := runUntilLlm_tail reg ax l fuel wd rec [fr] f rest hexc hcur
        r e₂ hrun
      obtain ⟨pre', f', rec', he₂, hf'⟩ := hres
      rw [← h.2, he₂]
      exact ⟨pre', f', rfl, hf'⟩

/-- A shell auto step for the C5 witness. -/
def autoC5 : AutoV := { action := .shell "false", context := "run the check" }

/-- A compiled frame suspended at the auto step, for the C5 witness. -/
def frameC5 : CompiledScriptFrame :=
  { script_name := "s", working_dir := "/w", nl_raw := "src", arguments := "",
    gen := .suspended (fun _ => .done), step_index := 0,
    current_step := some (.auto autoC5) }

/-- An auto executor returning a failing shell result, for the C5 witness. -/
def axC5 : AutoExec := fun _ _ => .result (.shellResult false 1 "bad")

/-- Witness for C5 at a concrete failing shell step: the loop suspends with
the synthesized judgment step pending. -/
theorem soft_auto_failure_synthesizes_judgment_witness :
    ∃ rr e', runStep regEmpty axC5 ⟨"/w", .compiled frameC5 :: [], []⟩ =
      .stop rr e' := by
  have h := soft_auto_failure_synthesizes_judgment regEmpty axC5 "/w" [] frameC5 []
    autoC5 (.shellResult false 1 "bad") rfl rfl rfl
    (fun exc hx => AutoResultV.noConfusion hx) rfl
  exact ⟨_, _, h.1⟩

/-- **C4.** Two-tier escalation is preserved. Soft tier: while an `Llm` step is
pending on the top compiled frame with no live exception — in particular the
synthesized error-handling step a soft `Auto` failure installs — `status` only
sets the presentation flag, `finish_nl_script` refuses with an error and only
sets the presentation flag, and `start` never pops the frame: afterwards it is
still on the stack, at most flag-mutated, above the untouched tail; so only
`continue_compiled_script`, by supplying judgment outputs, can advance or pop
it. Hard tier: while an `Auto` exception is live on the top compiled frame,
`continue_compiled_script` always refuses with the manual-completion error and
leaves the frame in place except for the presentation flag — it never advances
or pops it — while `complete_nl_script` (the executor operation behind
`finish_nl_script`) succeeds and pops exactly that frame. -/
theorem escalation_tiers_preserved (wd : String) (rec : List ExecutedStep)
    (f : CompiledScriptFrame) (rest : List ExecutionFrame) :
    (∀ l : LlmV, f.exception = none → f.current_step = some (.llm l) →
      ((serverStatus ⟨wd, .compiled f :: rest, rec⟩).2 =
        ⟨wd, .compiled { f with has_shown_nl_source := true } :: rest, rec⟩) ∧
      (∀ reg ax fuel, serverFinish reg ax fuel ⟨wd, .compiled f :: rest, rec⟩ =
        some ("Error: A compiled script LLM step is pending, not an NL script. " ++
          "Call `continue_compiled_script` instead.",
          ⟨wd, .compiled { f with has_shown_nl_source := true } :: rest, rec⟩)) ∧
      (∀ reg ax fuel name arguments wdo txt e',
        serverStart reg ax fuel name arguments wdo ⟨wd, .compiled f :: rest, rec⟩ =
          some (txt, e') →
        ∃ pre' f', e'.stack = pre' ++ .compiled f' :: rest ∧
          llmFramePreserved f f')) ∧
    (∀ exc : AutoExceptionV, f.exception = some exc →
      (∀ reg ax fuel outputs,
        serverContinue reg ax fuel outputs ⟨wd, .compiled f :: rest, rec⟩ =
          some ("Error: Compiled script `" ++ f.script_name ++
            "` needs to be completed manually. " ++
            "Call `finish_nl_script` instead of `continue_compiled_script` once all " ++
            "steps are complete.",
            ⟨wd, .compiled { f with has_shown_nl_source := true } :: rest, rec⟩)) ∧
      (completeNlScriptM ⟨wd, .compiled f :: rest, rec⟩).1 = .ok () ∧
      (completeNlScriptM ⟨wd, .compiled f :: rest, rec⟩).2.stack.length =
        rest.length) := by
  constructor
  · intro l hexc hcur
    have hp := pendingM_top_llm wd rec f rest l hexc hcur
    have hpp := pendingM_pendingM ⟨wd, .compiled f :: rest, rec⟩
    rw [hp] at hpp
    simp only [Prod.fst, Prod.snd, Option.map_some', PendingV.eraseOnce] at hpp
    refine ⟨?_, ?_, ?_⟩
    · rw [serverStatus_state, hp]
    · intro reg ax fuel
      simp [serverFinish, hp, hpp]
    · intro reg ax fuel name arguments wdo txt e' h
      exact serverStart_tail reg ax fuel name arguments wdo wd rec f rest l
        hexc hcur txt e' h
  · intro exc hfe
    have hp := pendingM_top_exc wd rec f rest exc hfe
    have hpp := pendingM_pendingM ⟨wd, .compiled f :: rest, rec⟩
    rw [hp] at hpp
    simp only [Prod.fst, Prod.snd, Option.map_some', PendingV.eraseOnce] at hpp
    simp only [hfe] at hp hpp
    refine ⟨?_, ?_⟩
    · intro reg ax fuel outputs
      simp [serverContinue, hp, hpp, hfe]
    · cases rest with
      | nil => simp [completeNlScriptM, hp, hpp, hfe]
      | cons top rest2 =>
        cases top with
        | nl nf => simp [completeNlScriptM, hp, hpp, hfe]
        | compiled pf =>
          rcases hpc : pf.currentStepM with ⟨s?, pf₁⟩
          cases s? with
          | none => simp [completeNlScriptM, hp, hpp, hfe, hpc]
          | some s =>
            cases s <;> simp [completeNlScriptM, hp, hpp, hfe, hpc]

/-- An error-handling LLM step, pending on the C4 soft-tier witness frame. -/
def llmC4 : LlmV := { prompt := "Handle the failure." }

/-- A compiled frame whose current step is the pending LLM step, for the C4
witness's soft tier. -/
def frameC4soft : CompiledScriptFrame :=
  { script_name := "s", working_dir := "/w", nl_raw := "src", arguments := "",
    gen := .exhausted, current_step := some (.llm llmC4) }

/-- A live auto exception, for the C4 witness's hard tier. -/
def excC4 : AutoExceptionV :=
  { exception := "CalledProcessError", step_description := "run", output := "bad" }

/-- A compiled frame faulted with the auto exception, for the C4 witness's
hard tier. -/
def frameC4hard : CompiledScriptFrame :=
  { script_name := "s", working_dir := "/w", nl_raw := "src", arguments := "",
    gen := .exhausted, exception := some excC4 }

/-- Witness for C4 at a concrete pending-LLM frame and a concrete faulted
frame: status and finish leave the soft-tier frame in place; continue refuses
the hard-tier frame, and complete pops it. -/
theorem escalation_tiers_preserved_witness :
    (serverStatus ⟨"/w", [.compiled frameC4soft], []⟩).2 =
      ⟨"/w", [.compiled { frameC4soft with has_shown_nl_source := true }], []⟩ ∧
    serverFinish regEmpty axTrivial 5 ⟨"/w", [.compiled frameC4soft], []⟩ =
      some ("Error: A compiled script LLM step is pending, not an NL script. " ++
        "Call `continue_compiled_script` instead.",
        ⟨"/w", [.compiled { frameC4soft with has_shown_nl_source := true }], []⟩) ∧
    serverContinue regEmpty axTrivial 5 [] ⟨"/w", [.compiled frameC4hard], []⟩ =
      some ("Error: Compiled script `" ++ frameC4hard.script_name ++
        "` needs to be completed manually. " ++
        "Call `finish_nl_script` instead of `continue_compiled_script` once all " ++
        "steps are complete.",
        ⟨"/w", [.compiled { frameC4hard with has_shown_nl_source := true }], []⟩) ∧
    (completeNlScriptM ⟨"/w", [.compiled frameC4hard], []⟩).1 = .ok () ∧
    (completeNlScriptM ⟨"/w", [.compiled frameC4hard], []⟩).2.stack.length = 0 := by
  have hs := (escalation_tiers_preserved "/w" [] frameC4soft []).1 llmC4 rfl rfl
  have hh := (escalation_tiers_preserved "/w" [] frameC4hard []).2 excC4 rfl
  exact ⟨hs.1, hs.2.1 regEmpty axTrivial 5, hh.1 regEmpty axTrivial 5 [],
    hh.2.1, hh.2.2⟩

theorem pendingM_rec_fst (wd : String) (stack : List ExecutionFrame)
    (rec rec' : List ExecutedStep) :
    (pendingM ⟨wd, stack, rec'⟩).1 = (pendingM ⟨wd, stack, rec⟩).1 := by
  cases stack with
  | nil => rfl
  | cons top rest =>
    cases top with
    | nl f => rfl
    | compiled f =>
      cases hexc : f.exception with
      | some exc => simp [pendingM, hexc, McpScriptExecutor.get_stack_path]
      | none =>
        rcases hcs : f.currentStepM with ⟨s?, f₁⟩
        cases s? with
        | none => simp [pendingM, hexc, hcs]
        | some s => cases s <;> simp [pendingM, hexc, hcs, McpScriptExecutor.get_stack_path]

theorem advance_exception (f : CompiledScriptFrame) (r : ResultV) :
    (f.advance r).exception = f.exception := by
  rcases hs : genSend f.gen r with ⟨s?, g⟩
  cases s? <;> simp [CompiledScriptFrame.advance, hs]

/-- The one nonempty stack shape with a `None` pending value that the public
tool surface can leave at rest: a single compiled frame with no live exception
whose generator is exhausted (the state `continue_compiled_script` leaves
behind when the root script's final step completes, since its
`has_more = False` path returns without popping the frame). -/
def singleExhausted (e : McpScriptExecutor) : Prop :=
  ∃ f : CompiledScriptFrame, e.stack = [.compiled f] ∧ f.exception = none ∧
    (f.currentStepM).1 = none

theorem singleExhausted_pending_none (e : McpScriptExecutor)
    (h : singleExhausted e) : (pendingM e).1 = none := by
  obtain ⟨f, hst, hfe, hfc⟩ := h
  rcases e with ⟨wd, stack, rec⟩
  simp only at hst
  subst hst
  rcases hcs : f.currentStepM with ⟨s?, f₁⟩
  rw [hcs] at hfc
  simp only [Prod.fst] at hfc
  subst hfc
  rw [pendingM_top_stepNone wd rec f f₁ [] hfe hcs]

/-- The C2 stack invariant: whenever the pending derivation returns `None`,
the stack is empty or holds exactly one exhausted, un-faulted compiled
frame. -/
def pendingNoneInv (e : McpScriptExecutor) : Prop :=
  (pendingM e).1 = none → e.stack = [] ∨ singleExhausted e

theorem isSome_inv (e : McpScriptExecutor)
    (h : (pendingM e).1.isSome = true) : pendingNoneInv e := by
  intro hnone
  rw [hnone] at h
  simp at h

theorem postLoop_inv (e : McpScriptExecutor)
    (h : (pendingM e).1.isSome = true ∨ e.stack = []) : pendingNoneInv e := by
  rcases h with h | h
  · exact isSome_inv e h
  · intro _
    exact .inl h

theorem pendEval_inv (e : McpScriptExecutor) (ih : pendingNoneInv e) :
    pendingNoneInv (pendingM e).2 := by
  intro hnone
  have herase := pendingM_erase e
  rw [hnone] at herase
  have hfst : (pendingM e).1 = none := by
    cases hp : (pendingM e).1 with
    | none => rfl
    | some q => rw [hp] at herase; simp at herase
  rcases ih hfst with hempty | hsingle
  · rcases e with ⟨wd, stack, rec⟩
    simp only at hempty
    subst hempty
    exact .inl rfl
  · obtain ⟨f, hst, hfe, hfc⟩ := hsingle
    rcases e with ⟨wd, stack, rec⟩
    simp only at hst
    subst hst
    rcases hcs : f.currentStepM with ⟨s?, f₁⟩
    rw [hcs] at hfc
    simp only [Prod.fst] at hfc
    subst hfc
    rw [pendingM_top_stepNone wd rec f f₁ [] hfe hcs]
    have hidem := currentStepM_idem f
    rw [hcs] at hidem
    simp only [Prod.fst, Prod.snd] at hidem
    have hcore := currentStepM_core (f := f)
    rw [hcs] at hcore
    simp only [Prod.snd] at hcore
    refine .inr ⟨f₁, rfl, ?_, ?_⟩
    · rw [hcore.2.2.2.2.2.2, hfe]
    · rw [hidem]

theorem pendingM_llmStep_shape (e : McpScriptExecutor) (q : PendingLlmStepV)
    (h : (pendingM e).1 = some (.llmStep q)) :
    ∃ wd f rest rec, (pendingM e).2 = ⟨wd, .compiled f :: rest, rec⟩ ∧
      f.exception = none ∧ f.current_step = some (.llm q.step) := by
  rcases e with ⟨wd, stack, rec⟩
  cases stack with
  | nil => simp [pendingM] at h
  | cons top rest =>
    cases top with
    | nl f => simp [pendingM] at h
    | compiled f =>
      cases hexc : f.exception with
      | some exc =>
        rw [pendingM_top_exc wd rec f rest exc hexc] at h
        simp at h
      | none =>
        rcases hcs : f.currentStepM with ⟨s?, f₁⟩
        have hcore := currentStepM_core (f := f)
        rw [hcs] at hcore
        simp only [Prod.snd] at hcore
        cases s? with
        | none =>
          rw [pendingM_top_stepNone wd rec f f₁ rest hexc hcs] at h
          simp at h
        | some s =>
          cases s with
          | llm l =>
            rw [pendingM_top_llmM wd rec f f₁ rest l hexc hcs] at h ⊢
            simp only [Prod.fst, Option.some.injEq, PendingV.llmStep.injEq] at h
            have hcur₁ : f₁.current_step = some (.llm l) := by
              have h2 := currentStepM_some_current (f := f) (s := .llm l)
              rw [hcs] at h2
              exact h2 rfl
            have hqs : q.step = l := by rw [← h]
            refine ⟨wd, _, rest, rec, rfl, ?_, ?_⟩
            · show f₁.exception = none
              rw [hcore.2.2.2.2.2.2, hexc]
            · show f₁.current_step = some (.llm q.step)
              rw [hqs, hcur₁]
          | auto a =>
            rw [pendingM_top_auto wd rec f f₁ rest a hexc hcs] at h
            simp at h
          | callScript c =>
            rw [pendingM_top_call wd rec f f₁ rest c hexc hcs] at h
            simp at h

theorem runStep_stop_post (reg : Registry) (ax : AutoExec) (e : McpScriptExecutor)
    (r : RunResult) (e' : McpScriptExecutor) (h : runStep reg ax e = .stop r e') :
    (pendingM e').1.isSome = true ∨ e'.stack = [] := by
  have he' : (runStep reg ax e).stateOf = e' := by rw [h]; rfl
  rcases e with ⟨wd, stack, rec⟩
  cases stack with
  | nil =>
    right
    have hrw : runStep reg ax ⟨wd, [], rec⟩ =
        .stop ⟨rec, "", none⟩ ⟨wd, [], []⟩ := by
      simp [runStep, buildResultM]
    rw [hrw] at he'
    simp only [LoopOut.stateOf] at he'
    rw [← he']
  | cons top rest =>
    cases top with
    | nl pf =>
      left
      rw [runStep_top_nl reg ax wd rec pf rest] at he'
      simp only [LoopOut.stateOf] at he'
      rw [← he']
      simp [pendingM]
    | compiled f =>
      cases hexc : f.exception with
      | some exc =>
        left
        rw [runStep_top_exc reg ax wd rec f rest exc hexc] at he'
        simp only [LoopOut.stateOf] at he'
        rw [← he']
        simp [pendingM, hexc]
      | none =>
        rcases hcs : f.currentStepM with ⟨s?, f₁⟩
        have hcore := currentStepM_core (f := f)
        rw [hcs] at hcore
        simp only [Prod.snd] at hcore
        have hexc₁ : f₁.exception = none := by rw [hcore.2.2.2.2.2.2, hexc]
        cases s? with
        | none =>
          simp [runStep, hexc, hcs] at h
        | some s =>
          cases s with
          | llm l =>
            left
            have hcur₁ : f₁.current_step = some (.llm l) := by
              have h2 := currentStepM_some_current (f := f) (s := .llm l)
              rw [hcs] at h2
              exact h2 rfl
            rw [runStep_top_llmM reg ax wd rec f f₁ rest l hexc hcs] at he'
            simp only [LoopOut.stateOf] at he'
            rw [← he']
            simp [pendingM, CompiledScriptFrame.currentStepM, hexc₁, hcur₁]
          | callScript c =>
            cases hload : load_script reg c.name c.request with
            | error msg =>
              simp [runStep, hexc, hcs, hload] at h
            | ok ls =>
              cases ls with
              | nlS tname nlraw =>
                left
                have hrw : runStep reg ax ⟨wd, .compiled f :: rest, rec⟩ =
                    .stop
                      { executed_steps := rec ++ [callEntryStep f₁ c],
                        output_text := "",
                        pending := some (.nlScript
                          { name := tname,
                            content := loadNlSource (.nl
                              { script_name := tname,
                                working_dir := c.working_dir.getD f₁.working_dir,
                                nl_raw := nlraw, arguments := c.request }) }) }
                      ⟨wd, .nl
                          { script_name := tname,
                            working_dir := c.working_dir.getD f₁.working_dir,
                            nl_raw := nlraw, arguments := c.request }
                        :: .compiled f₁ :: rest, []⟩ := by
                  simp [runStep, hexc, hcs, hload, pendEval, pendingM_top_nl,
                    buildResultM, callEntryStep]
                rw [hrw] at he'
                simp only [LoopOut.stateOf] at he'
                rw [← he']
                simp [pendingM]
              | compiledS tname nlraw comp =>
                simp [runStep, hexc, hcs, hload] at h
          | auto a =>
            cases hax : ax a f₁.working_dir with
            | raised oe out =>
              left
              have hrw := runStep_auto_raised_state reg ax wd rec f f₁ rest a oe out
                _ rfl hexc hcs hax
              rw [hrw] at he'
              rw [← he']
              simp [pendingM]
            | result ar =>
              rcases ar with ⟨s, code, out⟩ | ⟨s, v, err, out⟩ | rexc
              · cases s with
                | false =>
                  left
                  rw [runStep_soft_failureM reg ax wd rec f f₁ rest a
                    (.shellResult false code out) hexc hcs hax
                    (fun hx h2 => AutoResultV.noConfusion h2) rfl] at he'
                  simp only [LoopOut.stateOf] at he'
                  rw [← he']
                  simp [pendingM, softFailureFrame, CompiledScriptFrame.currentStepM,
                    hexc₁]
                | true =>
                  simp [runStep, hexc, hcs, hax, AutoResultV.success] at h
              · cases s with
                | false =>
                  left
                  rw [runStep_soft_failureM reg ax wd rec f f₁ rest a
                    (.callResult false v err out) hexc hcs hax
                    (fun hx h2 => AutoResultV.noConfusion h2) rfl] at he'
                  simp only [LoopOut.stateOf] at he'
                  rw [← he']
                  simp [pendingM, softFailureFrame, CompiledScriptFrame.currentStepM,
                    hexc₁]
                | true =>
                  simp [runStep, hexc, hcs, hax, AutoResultV.success] at h
              · left
                have hrw := runStep_auto_excResult_state reg ax wd rec f f₁ rest a
                  rexc hexc hcs hax
                rw [hrw] at he'
                rw [← he']
                simp [pendingM]

theorem runUntilLlm_post (reg : Registry) (ax : AutoExec) :
    ∀ (fuel : Nat) (e : McpScriptExecutor) (r : RunResult) (e' : McpScriptExecutor),
      runUntilLlm reg ax fuel e = some (r, e') →
      (pendingM e').1.isSome = true ∨ e'.stack = [] := by
  intro fuel
  induction fuel with
  | zero =>
    intro e r e' h
    simp [runUntilLlm] at h
  | succ n ih =>
    intro e r e' h
    rcases hout : runStep reg ax e with e0 | ⟨r0, e0⟩
    · simp only [runUntilLlm, hout] at h
      exact ih e0 r e' h
    · simp only [runUntilLlm, hout, Option.some.injEq, Prod.mk.injEq] at h
      rw [← h.2]
      exact runStep_stop_post reg ax e r0 e0 hout

theorem completeNlScriptM_error_isSome (e : McpScriptExecutor)
    (hsome : (pendingM e).1.isSome = true) (msg : String) (e'' : McpScriptExecutor)
    (h : completeNlScriptM e = (.error msg, e'')) :
    (pendingM e'').1.isSome = true := by
  rcases hpe : pendingM e with ⟨p₁, e₁⟩
  rw [hpe] at hsome
  simp only [Prod.fst] at hsome
  have hpp := pendingM_pendingM e
  rw [hpe] at hpp
  simp only [Prod.fst, Prod.snd] at hpp
  cases p₁ with
  | none => simp at hsome
  | some q =>
    simp only [Option.map_some'] at hpp
    have hgoal : (pendingM e₁).1.isSome = true := by rw [hpp]; simp
    cases q with
    | nlScript p =>
      cases hst : e₁.stack with
      | nil =>
        simp only [completeNlScriptM, hpe, hst, Prod.mk.injEq] at h
        rw [← h.2]
        exact hgoal
      | cons top rest =>
        cases top with
        | compiled cf =>
          simp only [completeNlScriptM, hpe, hst, Prod.mk.injEq] at h
          rw [← h.2]
          exact hgoal
        | nl nlf =>
          cases rest with
          | nil => simp [completeNlScriptM, hpe, hst] at h
          | cons rtop rest2 =>
            cases rtop with
            | nl nlf2 => simp [completeNlScriptM, hpe, hst] at h
            | compiled pf =>
              rcases hpc : pf.currentStepM with ⟨ps?, pf₁⟩
              cases ps? with
              | none => simp [completeNlScriptM, hpe, hst, hpc] at h
              | some ps =>
                cases ps <;> simp [completeNlScriptM, hpe, hst, hpc] at h
    | llmStep p =>
      simp only [completeNlScriptM, hpe, hpp, PendingV.eraseOnce, Prod.mk.injEq] at h
      rw [← h.2]
      exact hgoal
    | nlFallback p =>
      cases hst : e₁.stack with
      | nil =>
        simp only [completeNlScriptM, hpe, hpp, PendingV.eraseOnce, hst,
          Prod.mk.injEq] at h
        rw [← h.2]
        exact hgoal
      | cons top rest =>
        cases top with
        | nl nlf =>
          simp only [completeNlScriptM, hpe, hpp, PendingV.eraseOnce, hst,
            Prod.mk.injEq] at h
          rw [← h.2]
          exact hgoal
        | compiled ff =>
          cases hffe : ff.exception with
          | none =>
            simp only [completeNlScriptM, hpe, hpp, PendingV.eraseOnce, hst, hffe,
              Prod.mk.injEq] at h
            rw [← h.2]
            exact hgoal
          | some fexc =>
            cases rest with
            | nil => simp [completeNlScriptM, hpe, hpp, PendingV.eraseOnce, hst, hffe] at h
            | cons rtop rest2 =>
              cases rtop with
              | nl nlf2 =>
                simp [completeNlScriptM, hpe, hpp, PendingV.eraseOnce, hst, hffe] at h
              | compiled pf =>
                rcases hpc : pf.currentStepM with ⟨ps?, pf₁⟩
                cases ps? with
                | none =>
                  simp [completeNlScriptM, hpe, hpp, PendingV.eraseOnce, hst, hffe,
                    hpc] at h
                | some ps =>
                  cases ps <;>
                    simp [completeNlScriptM, hpe, hpp, PendingV.eraseOnce, hst, hffe,
                      hpc] at h

theorem serverStart_inv (reg : Registry) (ax : AutoExec) (fuel : Nat)
    (name arguments : String) (wdo : Option String) (e e' : McpScriptExecutor)
    (txt : String) (hop : serverStart reg ax fuel name arguments wdo e = some (txt, e'))
    (ih : pendingNoneInv e) : pendingNoneInv e' := by
  simp only [serverStart] at hop
  split at hop
  · simp only [Option.some.injEq, Prod.mk.injEq] at hop
    rw [← hop.2]
    exact ih
  · rename_i e₁ hpush
    split at hop
    · simp at hop
    · rename_i rr e₂ hrun
      simp only [Option.some.injEq, Prod.mk.injEq] at hop
      rw [← hop.2]
      exact postLoop_inv _ (runUntilLlm_post reg ax fuel e₁ rr e₂ hrun)

theorem serverStatus_inv (e e' : McpScriptExecutor) (txt : String)
    (hop : serverStatus e = (txt, e')) (ih : pendingNoneInv e) :
    pendingNoneInv e' := by
  have h2 := serverStatus_state e
  rw [hop] at h2
  simp only [Prod.snd] at h2
  rw [h2]
  exact pendEval_inv e ih

theorem serverFinish_inv (reg : Registry) (ax : AutoExec) (fuel : Nat)
    (e e' : McpScriptExecutor) (txt : String)
    (hop : serverFinish reg ax fuel e = some (txt, e'))
    (ih : pendingNoneInv e) : pendingNoneInv e' := by
  rcases hpe : pendingM e with ⟨p₁, e₁⟩
  have hpp := pendingM_pendingM e
  rw [hpe] at hpp
  simp only [Prod.fst, Prod.snd] at hpp
  cases p₁ with
  | none =>
    simp only [serverFinish, hpe, hpp, Option.map_none'] at hop
    simp only [Option.some.injEq, Prod.mk.injEq] at hop
    rw [← hop.2]
    have hpi := pendEval_inv e ih
    rw [hpe] at hpi
    exact hpi
  | some q =>
    have hq1 : (pendingM e₁).1.isSome = true := by
      rw [hpp]
      simp
    cases q with
    | nlScript p =>
      rcases hc : completeNlScriptM e₁ with ⟨res, e₂⟩
      cases res with
      | error msg =>
        simp only [serverFinish, hpe, hc] at hop
        simp only [Option.some.injEq, Prod.mk.injEq] at hop
        rw [← hop.2]
        exact isSome_inv _ (completeNlScriptM_error_isSome e₁ hq1 msg e₂ hc)
      | ok u =>
        simp only [serverFinish, hpe, hc] at hop
        split at hop
        · simp at hop
        · rename_i rr e₃ hrun
          simp only [Option.some.injEq, Prod.mk.injEq] at hop
          rw [← hop.2]
          exact postLoop_inv _ (runUntilLlm_post reg ax fuel e₂ rr e₃ hrun)
    | nlFallback p =>
      rcases hc : completeNlScriptM e₁ with ⟨res, e₂⟩
      cases res with
      | error msg =>
        simp only [serverFinish, hpe, hc] at hop
        simp only [Option.some.injEq, Prod.mk.injEq] at hop
        rw [← hop.2]
        exact isSome_inv _ (completeNlScriptM_error_isSome e₁ hq1 msg e₂ hc)
      | ok u =>
        simp only [serverFinish, hpe, hc] at hop
        split at hop
        · simp at hop
        · rename_i rr e₃ hrun
          simp only [Option.some.injEq, Prod.mk.injEq] at hop
          rw [← hop.2]
          exact postLoop_inv _ (runUntilLlm_post reg ax fuel e₂ rr e₃ hrun)
    | llmStep p =>
      simp only [serverFinish, hpe, hpp, Option.map_some', PendingV.eraseOnce] at hop
      simp only [Option.some.injEq, Prod.mk.injEq] at hop
      rw [← hop.2]
      exact isSome_inv _ hq1

theorem serverContinue_inv (reg : Registry) (ax : AutoExec) (fuel : Nat)
    (outputs : List (String × String)) (e e' : McpScriptExecutor) (txt : String)
    (hop : serverContinue reg ax fuel outputs e = some (txt, e'))
    (ih : pendingNoneInv e) : pendingNoneInv e' := by
  rcases hpe : pendingM e with ⟨p₁, e₁⟩
  have hpp := pendingM_pendingM e
  rw [hpe] at hpp
  simp only [Prod.fst, Prod.snd] at hpp
  cases p₁ with
  | none =>
    simp only [serverContinue, hpe, hpp, Option.map_none'] at hop
    simp only [Option.some.injEq, Prod.mk.injEq] at hop
    rw [← hop.2]
    have hpi := pendEval_inv e ih
    rw [hpe] at hpi
    exact hpi
  | some q =>
    have hq1 : (pendingM e₁).1.isSome = true := by
      rw [hpp]
      simp
    cases q with
    | nlScript p =>
      simp only [serverContinue, hpe] at hop
      simp only [Option.some.injEq, Prod.mk.injEq] at hop
      rw [← hop.2]
      exact isSome_inv _ hq1
    | nlFallback p =>
      simp only [serverContinue, hpe, hpp, Option.map_some', PendingV.eraseOnce] at hop
      simp only [Option.some.injEq, Prod.mk.injEq] at hop
      rw [← hop.2]
      exact isSome_inv _ hq1
    | llmStep p =>
      obtain ⟨wd', f, rest', rec', he₁, hfe, hfc⟩ :=
        pendingM_llmStep_shape e p (by rw [hpe])
      rw [hpe] at he₁
      simp only [Prod.snd] at he₁
      subst he₁
      have hadv := currentStepM_advance f (.llm true outputs)
      cases hs : (f.advance (.llm true outputs)).current_step with
      | some s =>
        simp only [serverContinue, continueAfterLlm, hpe, hpp, Option.map_some',
          PendingV.eraseOnce, hadv, hs] at hop
        split at hop
        · split at hop
          · simp at hop
          · rename_i rr e₅ hrun
            simp only [Option.some.injEq, Prod.mk.injEq] at hop
            rw [← hop.2]
            exact postLoop_inv _ (runUntilLlm_post reg ax fuel _ rr e₅ hrun)
        · rename_i hcond
          exact absurd trivial hcond
      | none =>
        simp only [serverContinue, continueAfterLlm, hpe, hpp, Option.map_some',
          PendingV.eraseOnce, hadv, hs] at hop
        split at hop
        · split at hop
          · simp at hop
          · rename_i rr e₅ hrun
            simp only [Option.some.injEq, Prod.mk.injEq] at hop
            rw [← hop.2]
            exact postLoop_inv _ (runUntilLlm_post reg ax fuel _ rr e₅ hrun)
        · rename_i hlen
          simp only [Option.some.injEq, Prod.mk.injEq] at hop
          rw [← hop.2]
          have hrest : rest' = [] := by
            rcases rest' with _ | ⟨a, t⟩
            · rfl
            · exfalso
              apply hlen
              simp only [List.length_cons, decide_eq_true_eq]
              omega
          subst hrest
          intro _
          refine .inr ⟨f.advance (.llm true outputs), rfl, ?_, ?_⟩
          · rw [advance_exception, hfe]
          · simp [hadv, hs]

theorem Reachable_inv (reg : Registry) (ax : AutoExec) (wd : String)
    (e : McpScriptExecutor) (h : Reachable reg ax wd e) : pendingNoneInv e := by
  induction h with
  | init =>
    intro _
    exact .inl rfl
  | startOp _ hop ih => exact serverStart_inv _ _ _ _ _ _ _ _ _ hop ih
  | continueOp _ hop ih => exact serverContinue_inv _ _ _ _ _ _ _ hop ih
  | finishOp _ hop ih => exact serverFinish_inv _ _ _ _ _ _ hop ih
  | statusOp _ hop ih => exact serverStatus_inv _ _ _ hop ih

/-- **C2 (amended).** For every state reachable through the public operations,
the derived pending value is `None` iff the stack is empty **or** holds
exactly one compiled frame with no live exception whose generator is
exhausted. The second disjunct is the deviation from the specified invariant:
`continue_compiled_script` returns `All Steps Completed` without popping the
root frame when its last step finishes, leaving a nonempty stack whose pending
derivation is `None`. -/
theorem pending_none_iff_stack_empty_or_exhausted (reg : Registry) (ax : AutoExec)
    (wd : String) (e : McpScriptExecutor) (h : Reachable reg ax wd e) :
    ((pendingM e).1 = none ↔ e.stack = [] ∨ singleExhausted e) := by
  constructor
  · exact Reachable_inv reg ax wd e h
  · intro hd
    rcases hd with hd | hd
    · rcases e with ⟨wd', stack, rec⟩
      simp only at hd
      subst hd
      rfl
    · exact singleExhausted_pending_none e hd

/-- Witness for the amended C2 invariant at the initial (empty-stack)
executor. -/
theorem pending_none_iff_stack_empty_or_exhausted_witness :
    (pendingM (initExec "/w")).1 = none :=
  (pending_none_iff_stack_empty_or_exhausted regEmpty axTrivial "/w"
    (initExec "/w") .init).mpr (Or.inl rfl)

/-- The continuation of the one-step C2 script after its single LLM step. -/
def kC2 : ResultV → Comp := fun _ => .done

/-- The single LLM step of the C2 counterexample script. -/
def llmC2 : LlmV := { prompt := "do it" }

/-- A compiled script consisting of one LLM step. -/
def compC2 : Comp := .step (.llm llmC2) kC2

/-- A registry resolving the name `s` to the one-step compiled script. -/
def regC2 : Registry := fun n _ =>
  if n = "s" then .ok (.compiledS "s" "src" compC2)
  else .error ("Script not found: " ++ n)

/-- The executor state after `start s`: the root frame suspended at the LLM
step, presentation flag shown. -/
def e1C2 : McpScriptExecutor :=
  ⟨"/w", [.compiled
    { script_name := "s", working_dir := "/w", nl_raw := "src", arguments := "",
      gen := .suspended kC2, step_index := 0, current_step := some (.llm llmC2),
      has_shown_nl_source := true }], []⟩

/-- The executor state after the follow-up `continue_compiled_script`: the
exhausted root frame is left on the stack. -/
def e2C2 : McpScriptExecutor :=
  ⟨"/w", [.compiled
    { script_name := "s", working_dir := "/w", nl_raw := "src", arguments := "",
      gen := .exhausted, step_index := 0, current_step := none,
      has_shown_nl_source := true }], []⟩

/-- **C2 (counterexample).** A state reachable by `start` on a one-step
compiled script followed by one `continue_compiled_script` has a `None`
pending value with a nonempty stack: the `has_more = False` reply path leaves
the exhausted root frame unpopped, refuting `Pending() == None` iff the stack
is empty. -/
theorem pending_none_nonempty_stack_counterexample :
    ∃ e : McpScriptExecutor, Reachable regC2 axTrivial "/w" e ∧
      (pendingM e).1 = none ∧ e.stack ≠ [] := by
  obtain ⟨txt1, h1⟩ : ∃ t, serverStart regC2 axTrivial 3 "s" "" none
      (initExec "/w") = some (t, e1C2) := ⟨_, rfl⟩
  obtain ⟨txt2, h2⟩ : ∃ t, serverContinue regC2 axTrivial 3 [] e1C2 =
      some (t, e2C2) := ⟨_, rfl⟩
  refine ⟨e2C2, .continueOp (.startOp .init h1) h2, rfl, ?_⟩
  simp [e2C2]

end Mekara

